import Mathlib

/-!
# hst: operational semantics of CSP process terms

A shallow embedding of the `initials` / `afters` rules of the process nodes in
`src/hst/prefix.cc`, `src/hst/sequential-composition.cc` and
`src/hst/external-choice.cc`, with their `hash()` and `operator==`, of the set
helpers of `src/hst/process.cc` (τ-closure, hashing, rendering) and of the
event table of `src/hst/event.cc`.

Conventions of the embedding.

* A process is a term; two terms are the same node exactly when they are equal
  (hash-consing in the environment, deep `operator==` in the older files).
* `Process.Set` is a duplicate-free list kept in ascending order of a fixed
  injective key (`Process.code`); the order of the list is the order in which
  the C++ container is iterated.  The operand list stored in a choice node is
  iterated as stored, so a statement quantified over all operand lists covers
  every iteration order of the operand set.
* `Event.Set` is a finite set of events; the container is a `std::set<Event>`,
  visited from `begin()` to `end()` in ascending order of index
  (`Event.Set.iterate`).
* `void f(..., Set* out)` becomes a function from the old contents of `out`
  to the new contents.
* `void f(..., std::function<void(X)> op)` is only ever called with
  `op = [&out](X x) { out->insert(x); }` (`process.cc`, lines 19-35).  A call
  `p->f(op)` on an operand is modelled as: run the set form of `p` on an empty
  set and insert every element of the result into `out`.  A callback cannot
  remove anything from the set behind it.
-/

namespace hst

/-! ## Events -/

/-- An event is identified by its index in the event table (`event.cc`);
equality of events is equality of indices. -/
structure Event where
  index : Nat
deriving DecidableEq

namespace Event

/-- Modelled from the spec: `Event::tau()` is declared in `event.h`, which is
not among the sources.  The spec says that τ is one of the two pre-interned
events; it is given the first dense index. -/
def tau : Event := ⟨1⟩

/-- Modelled from the spec: `Event::tick()` is declared in `event.h`, which is
not among the sources.  The spec says that ✔ is the other pre-interned event,
distinct from τ; it is given the second dense index. -/
def tick : Event := ⟨2⟩

/-- The type `Event::Set`: a finite set of events. -/
abbrev Set := Finset Event

end Event

/-! ## Process terms -/

/-- One constructor per node class.  `Prefix`, `Skip`, `SequentialComposition`
and `ExternalChoice` carry the fields of the classes of the same name in the
sources (`a_`/`p_`, none, `p_`/`q_`, `ps_`).  `Stop` and `InternalChoice` are
the classes whose files are not among the sources; their rules are modelled
from the spec below. -/
inductive Process where
  | Stop
  | Skip
  | Prefix (a : Event) (p : Process)
  | InternalChoice (ps : List Process)
  | ExternalChoice (ps : List Process)
  | SequentialComposition (p q : Process)

namespace Process

/-! ### Identity of nodes -/

mutual
/-- An injective numbering of terms.  It plays the part of the address of the
canonical node: it decides equality of terms and fixes the order in which a
`Process.Set` is kept. -/
def code : Process → Nat
  | .Stop => Nat.pair 0 0
  | .Skip => Nat.pair 1 0
  | .Prefix a p => Nat.pair 2 (Nat.pair a.index (code p))
  | .InternalChoice ps => Nat.pair 3 (codeList ps)
  | .ExternalChoice ps => Nat.pair 4 (codeList ps)
  | .SequentialComposition p q => Nat.pair 5 (Nat.pair (code p) (code q))
/-- The numbering of a list of terms. -/
def codeList : List Process → Nat
  | [] => 0
  | p :: ps => Nat.pair (code p) (codeList ps) + 1
end

mutual
theorem code_injective : ∀ (p q : Process), code p = code q → p = q
  | .Stop, q, h => by cases q <;> simp_all [code]
  | .Skip, q, h => by cases q <;> simp_all [code]
  | .Prefix a p, q, h => by
      cases q <;> simp [code] at h
      rename_i b q
      have hp := code_injective p q h.2
      have ha : a = b := by
        cases a; cases b; simp_all
      rw [hp, ha]
  | .InternalChoice ps, q, h => by
      cases q <;> simp [code] at h
      rename_i qs
      rw [codeList_injective ps qs h]
  | .ExternalChoice ps, q, h => by
      cases q <;> simp [code] at h
      rename_i qs
      rw [codeList_injective ps qs h]
  | .SequentialComposition p p2, q, h => by
      cases q <;> simp [code] at h
      rename_i q q2
      rw [code_injective p q h.1, code_injective p2 q2 h.2]
theorem codeList_injective : ∀ (ps qs : List Process), codeList ps = codeList qs → ps = qs
  | [], qs, h => by cases qs <;> simp_all [codeList]
  | p :: ps, qs, h => by
      cases qs with
      | nil => simp [codeList] at h
      | cons q qs =>
        simp [codeList] at h
        rw [code_injective p q h.1, codeList_injective ps qs h.2]
end

instance : DecidableEq Process := fun p q =>
  decidable_of_iff (code p = code q) ⟨code_injective p q, fun h => by rw [h]⟩

/-! ### Sets of processes -/

/-- The type `Process::Set`: the elements in iteration order. -/
abbrev Set := List Process

namespace Set

/-- The empty set (`Process::Set afters;`). -/
def empty : Process.Set := []

/-- The call `out->insert(p)`: no effect when `p` is already present. -/
def insert (s : Process.Set) (p : Process) : Process.Set :=
  if p ∈ s then s else List.orderedInsert (fun x y => code x ≤ code y) p s

/-- The call `out->erase(p)`: no effect when `p` is absent. -/
def erase (s : Process.Set) (p : Process) : Process.Set :=
  s.filter (fun x => decide (x ≠ p))

/-- The loop `for (x : xs) { out->insert(x); }`: what the callback
`[&out](const Process& process) { out->insert(&process); }` of
`Process::afters(Event, Process::Set*)` does with the processes handed to it. -/
def insertAll (out : Process.Set) (xs : List Process) : Process.Set :=
  xs.foldl insert out

end Set

/-! ### Factories -/

/-- Modelled from the spec: `stop()` / `Environment::stop()` is defined in a
file that is not among the sources; it returns the `STOP` node. -/
def stop : Process := .Stop

/-- The factory `skip()` of `sequential-composition.cc`. -/
def skip : Process := .Skip

/-- The factory `sequential_composition(p, q)`. -/
def sequential_composition (p q : Process) : Process := .SequentialComposition p q

/-- The factory `Environment::external_choice(Process::Set ps)`: the node
holding the set `ps`. -/
def external_choice (ps : Process.Set) : Process := .ExternalChoice ps

/-- The factory `Environment::external_choice(p, q)`, which calls the set form
on `Process::Set{p, q}`. -/
def external_choice₂ (p q : Process) : Process :=
  external_choice (Set.insert (Set.insert Set.empty p) q)

/-- Modelled from the spec: `Environment::internal_choice(Process::Set ps)` is
defined in a file that is not among the sources. -/
def internal_choice (ps : Process.Set) : Process := .InternalChoice ps

/-- Modelled from the spec: the binary internal choice, "sugar for the set
form". -/
def internal_choice₂ (p q : Process) : Process :=
  internal_choice (Set.insert (Set.insert Set.empty p) q)

/-! ### Rules of the nodes that are not among the sources -/

/-- Modelled from the spec: `Stop::initials` (file not among the sources).
"`initials(STOP) = ∅`": nothing is added to the sink. -/
def Stop.initials (out : Event.Set) : Event.Set := out

/-- Modelled from the spec: `Stop::afters` (file not among the sources).
"`afters(STOP, a) = ∅` for every `a`": nothing is added to the sink. -/
def Stop.afters (_initial : Event) (out : Process.Set) : Process.Set := out

/-- Modelled from the spec: `InternalChoice::initials` (file not among the
sources).  "`initials = {τ}`". -/
def InternalChoice.initials (out : Event.Set) : Event.Set :=
  Insert.insert Event.tau out

/-- Modelled from the spec: `InternalChoice::afters` (file not among the
sources).  "`afters(τ) = Ps`.  All other afters empty." -/
def InternalChoice.afters (ps : List Process) (initial : Event)
    (out : Process.Set) : Process.Set :=
  if initial = Event.tau then Set.insertAll out ps else out

/-! ### `initials` -/

mutual
/-- The set form `initials(Event::Set* out)`, as a function of the contents of
`out`.

* `Skip::initials` (sequential-composition.cc:39-43), `Prefix::initials`
  (prefix.cc:46-51) and `SequentialComposition::initials`
  (sequential-composition.cc:113-125) are set forms in the source.
* `ExternalChoice::initials` (external-choice.cc:68-81) is a callback form;
  its set form is `Process::initials(Event::Set*)` (process.cc:19-23). -/
def initials : Process → Event.Set → Event.Set
  | .Stop, out => Stop.initials out
  | .Skip, out => Insert.insert Event.tick out
  | .Prefix a _, out => Insert.insert a out
  | .InternalChoice _, out => InternalChoice.initials out
  | .ExternalChoice ps, out => ExternalChoice.initials ps out
  | .SequentialComposition p _, out =>
      let out := initials p out
      if Event.tick ∈ out then Insert.insert Event.tau (out.erase Event.tick) else out
/-- The loop `for (const Process* p : ps_) { p->initials(op); }` with
`op = insert into out`. -/
def ExternalChoice.initials : List Process → Event.Set → Event.Set
  | [], out => out
  | p :: ps, out => ExternalChoice.initials ps (out ∪ initials p ∅)
end

/-! ### `afters` -/

/-- The inner loop of `ExternalChoice::afters` (external-choice.cc:101-109),
over the elements of `p_afters`; the state is the pair of the working set
`ps_prime` and the sink. -/
def ExternalChoice.aftersInner :
    List Process → Process.Set → Process.Set → Process.Set × Process.Set
  | [], ps_prime, out => (ps_prime, out)
  | p_prime :: rest, ps_prime, out =>
      let ps_prime := Set.insert ps_prime p_prime
      let out := Set.insert out (external_choice ps_prime)
      let ps_prime := Set.erase ps_prime p_prime
      ExternalChoice.aftersInner rest ps_prime out

mutual
/-- The set form `afters(Event initial, Process::Set* out)`, as a function of
the contents of `out`.

* `Skip::afters` (sequential-composition.cc:45-51), `Prefix::afters`
  (prefix.cc:53-60) and `SequentialComposition::afters`
  (sequential-composition.cc:127-164) are set forms in the source.
* `ExternalChoice::afters` (external-choice.cc:83-118) is a callback form;
  its set form is `Process::afters(Event, Process::Set*)` (process.cc:25-29). -/
def afters : Process → Event → Process.Set → Process.Set
  | .Stop, initial, out => Stop.afters initial out
  | .Skip, initial, out =>
      if initial = Event.tick then Set.insert out stop else out
  | .Prefix a p, initial, out =>
      if initial = a then Set.insert out p else out
  | .InternalChoice ps, initial, out => InternalChoice.afters ps initial out
  | .ExternalChoice ps, initial, out =>
      if initial = Event.tau then
        (ExternalChoice.aftersTau ps ps out).2
      else
        ExternalChoice.aftersOther ps initial out
  | .SequentialComposition p q, initial, out =>
      if initial = Event.tick then out
      else
        let out :=
          (afters p initial Set.empty).foldl
            (fun out p_prime => Set.insert out (sequential_composition p_prime q)) out
        if initial = Event.tau then
          if (afters p Event.tick Set.empty).isEmpty then out else Set.insert out q
        else out
termination_by structural p => p
/-- The outer loop of the τ branch of `ExternalChoice::afters`
(external-choice.cc:95-112) over the operands still to be visited; the state
is the pair of the working set `ps_prime` and the sink. -/
def ExternalChoice.aftersTau :
    List Process → Process.Set → Process.Set → Process.Set × Process.Set
  | [], ps_prime, out => (ps_prime, out)
  | p :: rest, ps_prime, out =>
      let ps_prime := Set.erase ps_prime p
      let p_afters := afters p Event.tau Set.empty
      let r := ExternalChoice.aftersInner p_afters ps_prime out
      ExternalChoice.aftersTau rest (Set.insert r.1 p) r.2
termination_by structural ps => ps
/-- The loop of the other branch of `ExternalChoice::afters`
(external-choice.cc:114-116): `p->afters(initial, op)` with
`op = insert into out`. -/
def ExternalChoice.aftersOther : List Process → Event → Process.Set → Process.Set
  | [], _, out => out
  | p :: ps, initial, out =>
      ExternalChoice.aftersOther ps initial (Set.insertAll out (afters p initial Set.empty))
termination_by structural ps => ps
end

/-! ### The terms of the core operators -/

mutual
/-- The terms "built from STOP, SKIP, prefix, external choice and sequential
composition": no internal choice anywhere in the term. -/
def core : Process → Bool
  | .Stop => true
  | .Skip => true
  | .Prefix _ p => core p
  | .InternalChoice _ => false
  | .ExternalChoice ps => coreList ps
  | .SequentialComposition p q => core p && core q
termination_by structural p => p
/-- Every term of the list is `core`. -/
def coreList : List Process → Bool
  | [] => true
  | p :: ps => core p && coreList ps
termination_by structural ps => ps
end

/-! ### What the spec says about `afters(□ Ps, τ)` -/

/-- The set that the spec, and the comment at external-choice.cc:87, give for
`afters(□ Ps, τ)`: `{ □ (Ps ∖ {P} ∪ {P'}) | P ∈ Ps, P' ∈ afters(P, τ) }`. -/
def ExternalChoice.aftersTauSpec (ps : Process.Set) : Finset Process :=
  ps.toFinset.biUnion fun P =>
    (afters P Event.tau Set.empty).toFinset.image fun P_prime =>
      external_choice (Set.insert (Set.erase ps P) P_prime)

end Process

/-! ## The processes of `tests/test-operators.cc` -/

namespace Example

open Process

/-- The event `Event("a")`, interned after τ and ✔. -/
def a : Event := ⟨3⟩

/-- The event `Event("b")`. -/
def b : Event := ⟨4⟩

/-- The event `Event("c")`. -/
def c : Event := ⟨5⟩

/-- The process `a → STOP`. -/
def a_STOP : Process := .Prefix a stop

/-- The process `b → STOP`. -/
def b_STOP : Process := .Prefix b stop

/-- The process `c → STOP`. -/
def c_STOP : Process := .Prefix c stop

/-- The process `a → b → STOP`. -/
def a_b_STOP : Process := .Prefix a b_STOP

/-- The process `a → SKIP`. -/
def a_SKIP : Process := .Prefix a skip

/-- The process `(a → STOP) □ (b → STOP ⊓ c → STOP)` (test-operators.cc:143). -/
def choice_a_bc : Process := external_choice₂ a_STOP (internal_choice₂ b_STOP c_STOP)

/-- The process `(a → STOP) □ (b → STOP)` (test-operators.cc:153). -/
def choice_a_b : Process := external_choice₂ a_STOP b_STOP

/-- The process `(a → STOP) □ (c → STOP)`. -/
def choice_a_c : Process := external_choice₂ a_STOP c_STOP

/-- The process `SKIP ; STOP` (test-operators.cc:322). -/
def SKIP_then_STOP : Process := sequential_composition skip stop

/-- The process `a → SKIP ; STOP` (test-operators.cc:333). -/
def a_SKIP_then_STOP : Process := sequential_composition a_SKIP stop

/-- The process `(a → b → STOP □ SKIP) ; STOP` (test-operators.cc:344). -/
def ext_then_STOP : Process :=
  sequential_composition (external_choice₂ a_b_STOP skip) stop

/-- The process `(a → b → STOP ⊓ SKIP) ; STOP` (test-operators.cc:355). -/
def int_then_STOP : Process :=
  sequential_composition (internal_choice₂ a_b_STOP skip) stop

/-- The operand set `{a → STOP ⊓ b → STOP, a → STOP, b → STOP}`: both
τ-successors of the first operand are operands themselves. -/
def overlapping : Process.Set :=
  Process.Set.insert
    (Process.Set.insert
      (Process.Set.insert Process.Set.empty (internal_choice₂ a_STOP b_STOP)) a_STOP)
    b_STOP

/-- The six orders in which the three operands of `overlapping` can be
visited. -/
def overlapping_orders : List (List Process) :=
  [[internal_choice₂ a_STOP b_STOP, a_STOP, b_STOP],
   [internal_choice₂ a_STOP b_STOP, b_STOP, a_STOP],
   [a_STOP, internal_choice₂ a_STOP b_STOP, b_STOP],
   [b_STOP, internal_choice₂ a_STOP b_STOP, a_STOP],
   [a_STOP, b_STOP, internal_choice₂ a_STOP b_STOP],
   [b_STOP, a_STOP, internal_choice₂ a_STOP b_STOP]]

end Example

/-! ## Canonical sets -/

namespace Process

/-- A list is a `Process::Set` value when it is in ascending order of the key
and has no duplicates: the one list that stands for its set of elements. -/
def Set.Canonical (s : Process.Set) : Prop :=
  s.Sorted (fun x y => code x ≤ code y) ∧ s.Nodup

end Process

/-! ## The event table (`event.cc`) -/

namespace Event

/-- Modelled from the spec: the type `Event::Index` is declared in `event.h`,
which is not among the sources.  "An integer index ≥ 1 dense in order of first
interning": it is taken to be wide enough never to wrap, a natural number. -/
abbrev Index := Nat

/-- The class `Event::Table` (event.cc:22-29).  A `std::map` is the function
from a key to the value stored under it, `none` for a key that is absent;
`names` stores a pointer to the key kept inside `indices`, which is that
string. -/
structure Table where
  names : Index → Option String
  indices : String → Option Index
  next_index : Index

/-- The table built by `Table() = default`: two empty maps and
`next_index = 1`. -/
def Table.new : Table :=
  { names := fun _ => none, indices := fun _ => none, next_index := 1 }

/-- The function `Event::find_or_create_event` (event.cc:33-53), on the global
`table_` (`none` is the null pointer): the index returned and the new value of
`table_`.  `table_->indices[name]` is the stored index, and `0` for a name
that was absent. -/
def find_or_create_event (table_ : Option Table) (name : String) : Index × Option Table :=
  let table := match table_ with
    | none => Table.new
    | some t => t
  let index := (table.indices name).getD 0
  if index = 0 then
    let index := table.next_index
    (index, some
      { names := fun i => if i = index then some name else table.names i
        indices := fun n => if n = name then some index else table.indices n
        next_index := table.next_index + 1 })
  else
    (index, some table)

/-- The function `Event::name` (event.cc:55-58): `*table_->names[index_]`, the
string behind the stored pointer; `none` stands for a null pointer. -/
def name (table_ : Option Table) (e : Event) : Option String :=
  match table_ with
  | none => none
  | some t => t.names e.index

/-- A sequence of `find_or_create_event` calls on one registry: the indices
returned, in order, and the registry afterwards. -/
def intern_all : Option Table → List String → List Index × Option Table
  | table_, [] => ([], table_)
  | table_, n :: rest =>
      let r := find_or_create_event table_ n
      let rs := intern_all r.2 rest
      (r.1 :: rs.1, rs.2)

/-- The distinct names of a sequence of calls, in order of first interning,
after the names `seen` that were interned before. -/
def first_seen (seen : List String) (calls : List String) : List String :=
  calls.foldl (fun seen n => if n ∈ seen then seen else seen ++ [n]) seen

/-- The table holds exactly the names `seen`, the `k`-th of them under index `k`. -/
def Rep (t : Table) (seen : List String) : Prop :=
  seen.Nodup ∧ t.next_index = seen.length + 1 ∧
  (∀ n, t.indices n = if n ∈ seen then some (seen.indexOf n + 1) else none) ∧
  (∀ i : Nat, t.names i = if 1 ≤ i ∧ i ≤ seen.length then seen[i - 1]? else none)

/-- The invariant on the global `table_`: a null pointer holds no name. -/
def RepO (table_ : Option Table) (seen : List String) : Prop :=
  match table_ with
  | none => seen = []
  | some t => Rep t seen

end Event
/-! ## Rendering of process sets and bags (`process.cc`) -/

namespace Process

/-- The type `Process::Bag`: the elements in iteration order, each as often as
the bag holds it. -/
abbrev Bag := List Process

/-- The call `std::sort(sorted_processes.begin(), sorted_processes.end(),
[](p1, p2) { return p1->index() < p2->index(); })` (process.cc:67-70 and
123-126).  `Process::index()` is declared in `process.h`, which is not among
the sources, and is a parameter.  Between two elements with the same index the
order that `std::sort` leaves is not specified; here the first one in the
input stays first. -/
def sort_by_index (index : Process → Nat) (processes : List Process) : List Process :=
  processes.insertionSort (fun p1 p2 => index p1 ≤ index p2)

/-- The loop of `operator<<` (process.cc:72-81 and 128-137) over the sorted
elements still to be written, with the flag `first` and the text written so
far.  `out << *process` appends the rendering of the process, which is
defined in files that are not among the sources and is a parameter. -/
def render_loop (print : Process → String) : List Process → Bool → String → String
  | [], _, out => out
  | process :: rest, first, out =>
      let out := if first then out else out ++ ", "
      render_loop print rest false (out ++ print process)

/-- The function `operator<<(std::ostream&, const Process::Set&)`
(process.cc:116-139): the text of the stream afterwards. -/
def Set.render (index : Process → Nat) (print : Process → String)
    (processes : Process.Set) (out : String) : String :=
  let sorted_processes := sort_by_index index processes
  let out := out ++ "\x7b"
  let out := render_loop print sorted_processes true out
  out ++ "\x7d"

/-- The function `operator<<(std::ostream&, const Process::Bag&)`
(process.cc:60-83): the text of the stream afterwards. -/
def Bag.render (index : Process → Nat) (print : Process → String)
    (processes : Process.Bag) (out : String) : String :=
  let sorted_processes := sort_by_index index processes
  let out := out ++ "\x7b"
  let out := render_loop print sorted_processes true out
  out ++ "\x7d"

end Process
/-! ## An environment for the rendering examples -/

namespace Example

open Process

/-- The index that an environment gives to `STOP`, `a → STOP` and `b → STOP`
when they are created in this order. -/
def creation_index (p : Process) : Nat :=
  if p = stop then 0 else if p = a_STOP then 1 else if p = b_STOP then 2 else 3

/-- The text of `STOP`, `a → STOP` and `b → STOP`. -/
def text (p : Process) : String :=
  if p = stop then "STOP" else if p = a_STOP then "a → STOP"
  else if p = b_STOP then "b → STOP" else ""

end Example
/-! ## Hashing and `operator==` of the nodes -/

/-- The dynamic class of a node: what `dynamic_cast` tests in `operator==`. -/
inductive Kind where
  | Stop
  | Skip
  | Prefix
  | InternalChoice
  | ExternalChoice
  | SequentialComposition
deriving DecidableEq

/-- The `static hash_scope` objects, one per function that hashes: the `hash()`
of each node class (`static hash_scope prefix;` and so on),
`Process::Set::hash`, `Process::Bag::hash` and `Event::Set::hash`. -/
inductive HashScope where
  | node (k : Kind)
  | process_set
  | process_bag
  | event_set
deriving DecidableEq

/-- Modelled from the spec: the class `hasher` is declared in `hash.h`, which
is not among the sources.  "A deterministic, non-cryptographic combinator with
two operations: `add(value)` (mixes in an integer, string, event, or process
hash) and `value()` (final 64-bit digest).  It is always constructed with a
scope": the digest is a function of the scope and of the sequence of values
added; an event is added as its index, a process as its `hash()`, a set of
processes as its `hash()`. -/
structure Hasher where
  value : HashScope → List Nat → Nat

namespace Process

/-- The class of a node. -/
def kind : Process → Kind
  | .Stop => .Stop
  | .Skip => .Skip
  | .Prefix _ _ => .Prefix
  | .InternalChoice _ => .InternalChoice
  | .ExternalChoice _ => .ExternalChoice
  | .SequentialComposition _ _ => .SequentialComposition

/-- The comparison `ps_ == other->ps_` of two `Process::Set`s: the same number
of elements, and every element of the first is an element of the second.  The
elements are pointers to canonical nodes, compared by identity. -/
def Set.equals (ps qs : Process.Set) : Bool :=
  decide (ps.length = qs.length) && ps.all (fun p => decide (p ∈ qs))

/-- Modelled from the spec: `Stop::operator==` (file not among the sources);
"`equals(other)` — structural". -/
def Stop.equals (other : Process) : Bool :=
  match other with
  | .Stop => true
  | _ => false

/-- Modelled from the spec: `InternalChoice::operator==` (file not among the
sources); "`equals(other)` — structural", as for the external choice. -/
def InternalChoice.equals (ps : Process.Set) (other : Process) : Bool :=
  match other with
  | .InternalChoice qs => Set.equals ps qs
  | _ => false

/-- The virtual `operator==`: `Skip::operator==`
(sequential-composition.cc:59-67), `Prefix::operator==` (prefix.cc:69-77),
`SequentialComposition::operator==` (sequential-composition.cc:172-182) and
`ExternalChoice::operator==` (external-choice.cc:135-143).  A failed
`dynamic_cast` is the default case of each `match`. -/
def equals : Process → Process → Bool
  | .Stop, other => Stop.equals other
  | .Skip, other =>
      match other with
      | .Skip => true
      | _ => false
  | .Prefix a p, other =>
      match other with
      | .Prefix b q => decide (a = b) && equals p q
      | _ => false
  | .InternalChoice ps, other => InternalChoice.equals ps other
  | .ExternalChoice ps, other =>
      match other with
      | .ExternalChoice qs => Set.equals ps qs
      | _ => false
  | .SequentialComposition p q, other =>
      match other with
      | .SequentialComposition p2 q2 => equals p p2 && equals q q2
      | _ => false

/-- The body of `Process::Set::hash` (process.cc:85-96) after the elements
were paired with their hashes: `std::sort` orders the pointers, here the keys
of the nodes, and `hash.add(*process)` adds the hash of each in that order. -/
def Set.hash_sorted (h : Hasher) (hashed : List (Process × Nat)) : Nat :=
  h.value .process_set
    ((hashed.insertionSort (fun x y => code x.1 ≤ code y.1)).map (fun x => x.2))

/-- Modelled from the spec: `Stop::hash` (file not among the sources);
"hashing is structural and salted per operator kind". -/
def Stop.hash (h : Hasher) : Nat := h.value (.node .Stop) []

/-- Modelled from the spec: `InternalChoice::hash` (file not among the
sources); as `ExternalChoice::hash`, with its own scope. -/
def InternalChoice.hash (h : Hasher) (ps_hash : Nat) : Nat :=
  h.value (.node .InternalChoice) [ps_hash]

mutual
/-- The virtual `hash()`: `Skip::hash` (sequential-composition.cc:53-57),
`Prefix::hash` (prefix.cc:62-67), `SequentialComposition::hash`
(sequential-composition.cc:166-170) and `ExternalChoice::hash`
(external-choice.cc:128-133). -/
def hash (h : Hasher) : Process → Nat
  | .Stop => Stop.hash h
  | .Skip => h.value (.node .Skip) []
  | .Prefix a p => h.value (.node .Prefix) [a.index, hash h p]
  | .InternalChoice ps => InternalChoice.hash h (Set.hash_sorted h (hash_each h ps))
  | .ExternalChoice ps => h.value (.node .ExternalChoice) [Set.hash_sorted h (hash_each h ps)]
  | .SequentialComposition p q =>
      h.value (.node .SequentialComposition) [hash h p, hash h q]
termination_by structural p => p
/-- Every element of a set with its hash. -/
def hash_each (h : Hasher) : List Process → List (Process × Nat)
  | [] => []
  | p :: ps => (p, hash h p) :: hash_each h ps
termination_by structural ps => ps
end

/-- The function `Process::Set::hash` (process.cc:85-96): the elements are
copied to a vector, sorted, and the hash of each is added in that order. -/
def Set.hash (h : Hasher) (ps : Process.Set) : Nat :=
  h.value .process_set
    ((ps.insertionSort (fun x y => code x ≤ code y)).map (Process.hash h))

/-- The operand lists of a term are sets: no list holds a node twice. -/
def wf : Process → Bool
  | .Stop => true
  | .Skip => true
  | .Prefix _ p => wf p
  | .InternalChoice ps => decide ps.Nodup
  | .ExternalChoice ps => decide ps.Nodup
  | .SequentialComposition p q => wf p && wf q

end Process

namespace Example

/-- A salt for every scope. -/
def salt : HashScope → Nat
  | .node .Stop => 1
  | .node .Skip => 2
  | .node .Prefix => 3
  | .node .InternalChoice => 4
  | .node .ExternalChoice => 5
  | .node .SequentialComposition => 6
  | .process_set => 7
  | .process_bag => 8
  | .event_set => 9

/-- A hasher: a 64-bit multiplicative mix of the salt and the values added. -/
def salted_hasher : Hasher :=
  ⟨fun scope values =>
    values.foldl (fun acc v => (31 * acc + v) % 18446744073709551616) (salt scope)⟩

end Example
/-! ## τ-closure (`Process::Set::tau_close`, process.cc:98-114) -/

namespace Process

mutual
/-- The number of nodes of a term, the nodes of the operands of a choice
counted once per operand.  Every τ-successor of a term is smaller. -/
def size : Process → Nat
  | .Stop => 1
  | .Skip => 1
  | .Prefix _ p => size p + 1
  | .InternalChoice ps => sizeList ps + 1
  | .ExternalChoice ps => sizeList ps + 1
  | .SequentialComposition p q => size p + size q + 1
termination_by structural p => p
/-- The sum of the sizes of the terms of a list. -/
def sizeList : List Process → Nat
  | [] => 0
  | p :: ps => size p + sizeList ps
termination_by structural ps => ps
end

namespace Set

/-- The first loop of the body of `tau_close` (process.cc:103-106): the set
`new_processes` after `process->afters(tau, &new_processes)` was called for
every element of the set. -/
def tau_successors (s : Process.Set) : Process.Set :=
  s.foldl (fun new_processes process => afters process Event.tau new_processes) Set.empty

/-- One turn of the `while (true)` loop of `tau_close`, the call
`insert(new_processes.begin(), new_processes.end())`: the set afterwards. -/
def tau_close_step (s : Process.Set) : Process.Set :=
  Set.insertAll s (tau_successors s)

/-- The loop `while (true) { ... }` of `tau_close`, run for at most `fuel`
turns: `some` of the set at the `return`, or `none` when the loop is still
running after `fuel` turns.  `size()` is the number of elements. -/
def tau_close_loop : Nat → Process.Set → Option Process.Set
  | 0, _ => none
  | fuel + 1, s =>
      let old_size := s.length
      let s := tau_close_step s
      let new_size := s.length
      if old_size = new_size then some s else tau_close_loop fuel s

/-- The function `Process::Set::tau_close`: the set at the `return`.  The loop
is given `sizeList s + 1` turns, which is enough for it to return
(`tau_close_loop_eq`); the seed is never the answer of a loop cut short. -/
def tau_close (s : Process.Set) : Process.Set :=
  (tau_close_loop (sizeList s + 1) s).getD s

end Set

/-- The processes reachable from a set by zero or more τ steps. -/
inductive TauReachable (s : Process.Set) : Process → Prop where
  | seed (P : Process) : P ∈ s → TauReachable s P
  | step (P Q : Process) : TauReachable s P → Q ∈ afters P Event.tau Set.empty →
      TauReachable s Q

/-- A set is closed under one-step τ-successors. -/
def TauClosed (T : Process → Prop) : Prop :=
  ∀ P, T P → ∀ Q ∈ afters P Event.tau Set.empty, T Q

end Process

/-! ## Hashing of bags and event sets, rendering of event sets -/

namespace Process

/-- The function `Process::Bag::hash` (process.cc:47-58): the elements are
copied to a vector, `std::sort` orders the pointers, here the keys of the
nodes, and the hash of each is added in that order. -/
def Bag.hash (h : Hasher) (processes : Process.Bag) : Nat :=
  h.value .process_bag
    ((processes.insertionSort (fun x y => code x ≤ code y)).map (Process.hash h))

end Process

namespace Event

/-- Modelled from the spec: `Event::operator<`, which the call
`std::sort(sorted.begin(), sorted.end())` of `Event::Set::hash` (event.cc:70)
works with, is declared in `event.h`, which is not among the sources.
"Ordering is by index": the vector in ascending order of index. -/
def sort (events : List Event) : List Event :=
  events.insertionSort (fun e1 e2 => e1.index ≤ e2.index)

/-- The function `Event::Set::hash` (event.cc:65-76), on the elements of the
set from `begin()` to `end()`, whatever order that is: they are copied to a
vector, sorted, and added in that order. -/
def Set.hash (h : Hasher) (events : List Event) : Nat :=
  h.value .event_set ((sort events).map (fun event => event.index))

/-- The function `operator<<(std::ostream&, const Event&)` (event.cc:60-63):
`out << event.name()`.  For an index that the table never issued the pointer
behind `name()` is null and nothing is written. -/
def render (table_ : Option Table) (event : Event) (out : String) : String :=
  out ++ (name table_ event).getD ""

/-- The loop of `operator<<(std::ostream&, const Event::Set&)`
(event.cc:82-89) over the elements still to be visited, with the flag `first`
and the text written so far. -/
def Set.render_loop (table_ : Option Table) : List Event → Bool → String → String
  | [], _, out => out
  | event :: rest, first, out =>
      let out := if first then out else out ++ ", "
      Set.render_loop table_ rest false (render table_ event out)

instance index_le_total : IsTotal Event (fun e1 e2 => e1.index ≤ e2.index) :=
  ⟨fun x y => Nat.le_total x.index y.index⟩

instance index_le_trans : IsTrans Event (fun e1 e2 => e1.index ≤ e2.index) :=
  ⟨fun _ _ _ h1 h2 => Nat.le_trans h1 h2⟩

instance index_le_antisymm : IsAntisymm Event (fun e1 e2 => e1.index ≤ e2.index) :=
  ⟨fun x y h1 h2 => by
    cases x
    cases y
    simp only [Event.mk.injEq]
    exact Nat.le_antisymm h1 h2⟩

/-- Modelled from the spec: the sequence `begin()` .. `end()` of an
`Event::Set`.  The type is declared in `event.h`, which is not among the
sources; the members declared as `initials(Event::Set* out)` are defined as
`Prefix::initials(std::set<Event>* out)` (prefix.cc:22, 47) and
`SequentialComposition::initials(std::set<Event>* out)`
(sequential-composition.cc:84, 114), so the container is a `std::set<Event>`,
which is iterated in ascending order of `Event::operator<`, "ordering is by
index".  The result does not depend on the list that represents the set. -/
def Set.iterate (events : Event.Set) : List Event :=
  Quot.liftOn events.val sort (fun l1 l2 hp =>
    List.eq_of_perm_of_sorted
      (((List.perm_insertionSort (fun e1 e2 : Event => e1.index ≤ e2.index) l1).trans hp).trans
        (List.perm_insertionSort (fun e1 e2 : Event => e1.index ≤ e2.index) l2).symm)
      (List.sorted_insertionSort (fun e1 e2 : Event => e1.index ≤ e2.index) l1)
      (List.sorted_insertionSort (fun e1 e2 : Event => e1.index ≤ e2.index) l2))

/-- The function `operator<<(std::ostream&, const Event::Set&)`
(event.cc:78-91): the text of the stream afterwards.  The loop
`for (auto event : events)` visits the elements of the container from
`begin()` to `end()`. -/
def Set.render (table_ : Option Table) (events : Event.Set) (out : String) : String :=
  let out := out ++ "\x7b"
  let out := Set.render_loop table_ (Set.iterate events) true out
  out ++ "\x7d"

/-- The text that the spec gives for an event set, from any list of its
events without repetition: the names of the events "sorted by index", joined
by `, ` between braces. -/
def Set.render_spec (table_ : Option Table) (events : List Event) (out : String) : String :=
  out ++ "\x7b" ++
    ", ".intercalate ((sort events).map (fun event => (name table_ event).getD "")) ++ "\x7d"

end Event

namespace Example

/-- The registry after `τ`, `✔`, `a` and `b` were interned, in this order. -/
def registry : Option Event.Table := (Event.intern_all none ["τ", "✔", "a", "b"]).2

end Example

/-! ## Lemmas -/

namespace Process

theorem tau_ne_tick : Event.tau ≠ Event.tick := by decide

namespace Set
theorem mem_insert (s : Process.Set) (p x : Process) :
    x ∈ Set.insert s p ↔ x = p ∨ x ∈ s := by
  unfold Set.insert
  split
  · constructor
    · intro h; exact Or.inr h
    · rintro (rfl | h)
      · assumption
      · exact h
  · simp [List.mem_orderedInsert]

theorem mem_erase (s : Process.Set) (p x : Process) :
    x ∈ Set.erase s p ↔ x ∈ s ∧ x ≠ p := by
  simp [Set.erase, List.mem_filter]

theorem mem_insertAll (xs : List Process) (out : Process.Set) (x : Process) :
    x ∈ Set.insertAll out xs ↔ x ∈ out ∨ x ∈ xs := by
  induction xs generalizing out with
  | nil => simp [Set.insertAll]
  | cons y ys ih =>
    have h : Set.insertAll out (y :: ys) = Set.insertAll (Set.insert out y) ys := rfl
    rw [h, ih, mem_insert]
    simp only [List.mem_cons]
    tauto

theorem insert_ne_nil (s : Process.Set) (p : Process) : Set.insert s p ≠ [] := by
  intro h
  have : p ∈ Set.insert s p := (mem_insert s p p).mpr (Or.inl rfl)
  rw [h] at this
  simp at this
end Set

theorem mem_foldl_insert_map (f : Process → Process) (xs : List Process)
    (out : Process.Set) (x : Process) :
    x ∈ xs.foldl (fun out p_prime => Set.insert out (f p_prime)) out ↔
      x ∈ out ∨ ∃ p_prime ∈ xs, x = f p_prime := by
  induction xs generalizing out with
  | nil => simp
  | cons y ys ih =>
    rw [List.foldl_cons, ih, Set.mem_insert]
    simp only [List.mem_cons, exists_eq_or_imp]
    tauto

mutual
theorem induction_on {motive : Process → Prop}
    (hStop : motive .Stop) (hSkip : motive .Skip)
    (hPrefix : ∀ a p, motive p → motive (.Prefix a p))
    (hInternal : ∀ ps, (∀ p ∈ ps, motive p) → motive (.InternalChoice ps))
    (hExternal : ∀ ps, (∀ p ∈ ps, motive p) → motive (.ExternalChoice ps))
    (hSeq : ∀ p q, motive p → motive q → motive (.SequentialComposition p q)) :
    ∀ p, motive p
  | .Stop => hStop
  | .Skip => hSkip
  | .Prefix a p => hPrefix a p (induction_on hStop hSkip hPrefix hInternal hExternal hSeq p)
  | .InternalChoice ps =>
      hInternal ps (induction_on_list hStop hSkip hPrefix hInternal hExternal hSeq ps)
  | .ExternalChoice ps =>
      hExternal ps (induction_on_list hStop hSkip hPrefix hInternal hExternal hSeq ps)
  | .SequentialComposition p q =>
      hSeq p q (induction_on hStop hSkip hPrefix hInternal hExternal hSeq p)
        (induction_on hStop hSkip hPrefix hInternal hExternal hSeq q)
theorem induction_on_list {motive : Process → Prop}
    (hStop : motive .Stop) (hSkip : motive .Skip)
    (hPrefix : ∀ a p, motive p → motive (.Prefix a p))
    (hInternal : ∀ ps, (∀ p ∈ ps, motive p) → motive (.InternalChoice ps))
    (hExternal : ∀ ps, (∀ p ∈ ps, motive p) → motive (.ExternalChoice ps))
    (hSeq : ∀ p q, motive p → motive q → motive (.SequentialComposition p q)) :
    ∀ ps : List Process, ∀ p ∈ ps, motive p
  | [] => by simp
  | p :: ps => by
      intro x hx
      rcases List.mem_cons.mp hx with h | h
      · rw [h]; exact induction_on hStop hSkip hPrefix hInternal hExternal hSeq p
      · exact induction_on_list hStop hSkip hPrefix hInternal hExternal hSeq ps x h
end

theorem initials_loop_eq (ps : List Process) (out : Event.Set) :
    ExternalChoice.initials ps out = out ∪ ps.toFinset.biUnion (fun P => initials P ∅) := by
  induction ps generalizing out with
  | nil => simp [ExternalChoice.initials]
  | cons p ps ih =>
    rw [ExternalChoice.initials, ih]
    simp [Finset.union_assoc]


theorem initials_seq (P Q : Process) :
    initials (sequential_composition P Q) ∅ =
      (initials P ∅).erase Event.tick ∪
        (if Event.tick ∈ initials P ∅ then {Event.tau} else ∅) := by
  simp only [sequential_composition, initials]
  split
  · rw [Finset.union_comm]; rfl
  · rename_i h
    simp [Finset.erase_eq_of_not_mem h]

theorem tick_not_mem_initials_seq (P Q : Process) (out : Event.Set) :
    Event.tick ∉ initials (sequential_composition P Q) out := by
  simp only [sequential_composition, initials]
  split
  · simp [Finset.mem_insert, Finset.mem_erase, tau_ne_tick.symm]
  · assumption

theorem afters_seq_tick (P Q : Process) (out : Process.Set) :
    afters (sequential_composition P Q) Event.tick out = out := by
  simp [sequential_composition, afters]


theorem mem_aftersOther (ps : List Process) (a : Event) (out : Process.Set) (x : Process) :
    x ∈ ExternalChoice.aftersOther ps a out ↔
      x ∈ out ∨ ∃ p ∈ ps, x ∈ afters p a Set.empty := by
  induction ps generalizing out with
  | nil => simp [ExternalChoice.aftersOther]
  | cons p ps ih =>
    rw [ExternalChoice.aftersOther, ih, Set.mem_insertAll]
    simp only [List.mem_cons, exists_eq_or_imp]
    tauto

theorem mem_afters_seq (P Q : Process) (a : Event) (ha : a ≠ Event.tick)
    (out : Process.Set) (x : Process) :
    x ∈ afters (sequential_composition P Q) a out ↔
      x ∈ out ∨ (∃ p_prime ∈ afters P a Set.empty, x = sequential_composition p_prime Q) ∨
        (a = Event.tau ∧ afters P Event.tick Set.empty ≠ [] ∧ x = Q) := by
  simp only [sequential_composition, afters, if_neg ha]
  by_cases hτ : a = Event.tau
  · simp only [hτ, if_true]
    by_cases hE : afters P Event.tick Set.empty = []
    · simp [hE, mem_foldl_insert_map]
    · have hE2 : (afters P Event.tick Set.empty).isEmpty = false := by
        cases h : afters P Event.tick Set.empty with
        | nil => exact absurd h hE
        | cons _ _ => rfl
      simp only [hE2, Bool.false_eq_true, if_false, Set.mem_insert, mem_foldl_insert_map]
      simp only [ne_eq, hE, not_false_eq_true, true_and]
      constructor
      · rintro (h | h | h)
        · exact Or.inr (Or.inr h)
        · exact Or.inl h
        · exact Or.inr (Or.inl h)
      · rintro (h | h | h)
        · exact Or.inr (Or.inl h)
        · exact Or.inr (Or.inr h)
        · exact Or.inl h
  · simp [hτ, mem_foldl_insert_map]

theorem aftersInner_snd_ne_nil (xs : List Process) (ps_prime out : Process.Set) :
    (ExternalChoice.aftersInner xs ps_prime out).2 ≠ [] ↔ out ≠ [] ∨ xs ≠ [] := by
  induction xs generalizing ps_prime out with
  | nil => simp [ExternalChoice.aftersInner]
  | cons y ys ih =>
    rw [ExternalChoice.aftersInner]
    simp only [ih]
    simp [Set.insert_ne_nil]

theorem aftersTau_snd_ne_nil (ps : List Process) (ps_prime out : Process.Set) :
    (ExternalChoice.aftersTau ps ps_prime out).2 ≠ [] ↔
      out ≠ [] ∨ ∃ p ∈ ps, afters p Event.tau Set.empty ≠ [] := by
  induction ps generalizing ps_prime out with
  | nil => simp [ExternalChoice.aftersTau]
  | cons p ps ih =>
    rw [ExternalChoice.aftersTau]
    simp only [ih, aftersInner_snd_ne_nil]
    simp only [List.mem_cons, exists_eq_or_imp]
    tauto

theorem ne_nil_iff_exists_mem (l : List Process) : l ≠ [] ↔ ∃ x, x ∈ l := by
  cases l <;> simp

theorem coreList_iff (ps : List Process) : coreList ps = true ↔ ∀ p ∈ ps, core p = true := by
  induction ps with
  | nil => simp [coreList]
  | cons p ps ih => simp [coreList, ih]

/-- Soundness and completeness of `initials` for one event: for a visible event
on every term, for τ on the terms without internal choice. -/
theorem afters_ne_nil_iff (P : Process) :
    ∀ a, (a ≠ Event.tau ∨ core P = true) →
      (afters P a Set.empty ≠ [] ↔ a ∈ initials P ∅) := by
  induction P using induction_on with
  | hStop => intro a _; simp [afters, initials, Stop.afters, Stop.initials, Set.empty]
  | hSkip =>
    intro a _
    by_cases h : a = Event.tick <;> simp [afters, initials, h, Set.insert_ne_nil, Set.empty]
  | hPrefix b p _ =>
    intro a _
    by_cases h : a = b <;> simp [afters, initials, h, Set.insert_ne_nil, Set.empty]
  | hInternal ps _ =>
    intro a h
    have ha : a ≠ Event.tau := by
      rcases h with h | h
      · exact h
      · simp [core] at h
    simp [afters, initials, InternalChoice.afters, InternalChoice.initials, ha, Set.empty]
  | hExternal ps ih =>
    intro a h
    have hmem : a ∈ initials (.ExternalChoice ps) ∅ ↔ ∃ p ∈ ps, a ∈ initials p ∅ := by
      simp [initials, initials_loop_eq]
    have hps : ∀ p ∈ ps, (a ≠ Event.tau ∨ core p = true) := by
      intro p hp
      rcases h with h | h
      · exact Or.inl h
      · right
        simp only [core] at h
        exact (coreList_iff ps).mp h p hp
    rw [hmem]
    by_cases hτ : a = Event.tau
    · subst hτ
      simp only [afters, if_true, aftersTau_snd_ne_nil]
      constructor
      · rintro (h0 | ⟨p, hp, h1⟩)
        · exact absurd rfl h0
        · exact ⟨p, hp, (ih p hp _ (hps p hp)).mp h1⟩
      · rintro ⟨p, hp, h1⟩
        exact Or.inr ⟨p, hp, (ih p hp _ (hps p hp)).mpr h1⟩
    · simp only [afters, if_neg hτ]
      rw [ne_nil_iff_exists_mem]
      simp only [mem_aftersOther, Set.empty, List.not_mem_nil, false_or]
      constructor
      · rintro ⟨x, p, hp, hx⟩
        exact ⟨p, hp, (ih p hp _ (hps p hp)).mp (by
          rw [ne_nil_iff_exists_mem]; exact ⟨x, hx⟩)⟩
      · rintro ⟨p, hp, h1⟩
        have := (ih p hp _ (hps p hp)).mpr h1
        rw [ne_nil_iff_exists_mem] at this
        obtain ⟨x, hx⟩ := this
        exact ⟨x, p, hp, hx⟩
  | hSeq p q ihp _ =>
    intro a h
    by_cases ht : a = Event.tick
    · subst ht
      have h1 := afters_seq_tick p q Set.empty
      have h2 := tick_not_mem_initials_seq p q ∅
      simp only [sequential_composition] at h1 h2
      rw [h1]
      simp [h2, Set.empty]
    · have hi := initials_seq p q
      simp only [sequential_composition] at hi
      rw [hi, ne_nil_iff_exists_mem]
      have hm := mem_afters_seq p q a ht Set.empty
      simp only [sequential_composition] at hm
      simp only [hm]
      have htick := ihp Event.tick (Or.inl tau_ne_tick.symm)
      by_cases hτ : a = Event.tau
      · subst hτ
        have hcp : core p = true := by
          rcases h with h | h
          · exact absurd rfl h
          · simp [core] at h; exact h.1
        have htau := ihp Event.tau (Or.inr hcp)
        rw [ne_nil_iff_exists_mem] at htau
        simp only [Set.empty, List.not_mem_nil, false_or, true_and]
        simp only [Set.empty] at htau htick
        constructor
        · rintro ⟨x, hx⟩
          rcases hx with ⟨p1, hp1, _⟩ | ⟨hne, _⟩
          · have : Event.tau ∈ initials p ∅ := htau.mp ⟨p1, hp1⟩
            simp [Finset.mem_union, Finset.mem_erase, this, tau_ne_tick]
          · have : Event.tick ∈ initials p ∅ := htick.mp hne
            simp [this]
        · intro hx
          by_cases hk : Event.tick ∈ initials p ∅
          · exact ⟨q, Or.inr ⟨htick.mpr hk, rfl⟩⟩
          · simp [hk, Finset.mem_erase] at hx
            obtain ⟨p1, hp1⟩ := htau.mpr hx
            exact ⟨_, Or.inl ⟨p1, hp1, rfl⟩⟩
      · have ha := ihp a (Or.inl hτ)
        rw [ne_nil_iff_exists_mem] at ha
        simp only [Set.empty, List.not_mem_nil, false_or, hτ, false_and, or_false]
        simp only [Set.empty] at ha
        constructor
        · rintro ⟨x, p1, hp1, _⟩
          have : a ∈ initials p ∅ := ha.mp ⟨p1, hp1⟩
          simp [Finset.mem_union, Finset.mem_erase, this, ht]
        · intro hx
          have : a ∈ initials p ∅ := by
            rcases Finset.mem_union.mp hx with h1 | h1
            · exact (Finset.mem_erase.mp h1).2
            · split at h1
              · exact absurd (Finset.mem_singleton.mp h1) hτ
              · simp at h1
          obtain ⟨p1, hp1⟩ := ha.mpr this
          exact ⟨_, p1, hp1, rfl⟩

end Process

/-! ## Lemmas on canonical sets -/

namespace Process

instance code_le_total : IsTotal Process (fun x y => code x ≤ code y) :=
  ⟨fun x y => Nat.le_total (code x) (code y)⟩

instance code_le_trans : IsTrans Process (fun x y => code x ≤ code y) :=
  ⟨fun _ _ _ h1 h2 => Nat.le_trans h1 h2⟩

instance code_le_antisymm : IsAntisymm Process (fun x y => code x ≤ code y) :=
  ⟨fun x y h1 h2 => code_injective x y (Nat.le_antisymm h1 h2)⟩

namespace Set

theorem canonical_empty : Canonical Set.empty :=
  ⟨List.sorted_nil, List.nodup_nil⟩

theorem canonical_insert (s : Process.Set) (p : Process) (hs : Canonical s) :
    Canonical (Set.insert s p) := by
  unfold Set.insert
  split
  · exact hs
  · rename_i hp
    refine ⟨hs.1.orderedInsert p s, ?_⟩
    have hperm := List.perm_orderedInsert (fun x y => code x ≤ code y) p s
    exact hperm.nodup_iff.mpr (List.nodup_cons.mpr ⟨hp, hs.2⟩)

theorem canonical_erase (s : Process.Set) (p : Process) (hs : Canonical s) :
    Canonical (Set.erase s p) :=
  ⟨hs.1.filter _, hs.2.filter _⟩

/-- Two canonical lists with the same elements are the same list. -/
theorem canonical_ext (s t : Process.Set) (hs : Canonical s) (ht : Canonical t)
    (h : ∀ x, x ∈ s ↔ x ∈ t) : s = t :=
  List.eq_of_perm_of_sorted ((List.perm_ext_iff_of_nodup hs.2 ht.2).mpr h) hs.1 ht.1

theorem canonical_insertAll (xs : List Process) (s : Process.Set) (hs : Canonical s) :
    Canonical (Set.insertAll s xs) := by
  induction xs generalizing s with
  | nil => exact hs
  | cons y ys ih => exact ih (Set.insert s y) (canonical_insert s y hs)

end Set

theorem aftersInner_nil (xs : List Process) (out : Process.Set) (x : Process) :
    (ExternalChoice.aftersInner xs [] out).1 = [] ∧
    (x ∈ (ExternalChoice.aftersInner xs [] out).2 ↔
      x ∈ out ∨ ∃ p_prime ∈ xs, x = external_choice [p_prime]) := by
  induction xs generalizing out with
  | nil => simp [ExternalChoice.aftersInner]
  | cons y ys ih =>
    have h1 : Set.insert [] y = [y] := by simp [Set.insert]
    have h2 : Set.erase [y] y = [] := by simp [Set.erase]
    rw [ExternalChoice.aftersInner]
    simp only [h1, h2]
    refine ⟨(ih _).1, ?_⟩
    rw [(ih _).2, Set.mem_insert]
    simp only [List.mem_cons, exists_eq_or_imp]
    constructor
    · rintro ((h | h) | h)
      · exact Or.inr (Or.inl h)
      · exact Or.inl h
      · exact Or.inr (Or.inr h)
    · rintro (h | h | h)
      · exact Or.inl (Or.inr h)
      · exact Or.inl (Or.inl h)
      · exact Or.inr h

end Process

/-! ## Lemmas on the event table -/

namespace Event

theorem rep_new : Rep Table.new [] := by
  refine ⟨List.nodup_nil, rfl, ?_, ?_⟩
  · intro n; simp [Table.new]
  · intro i; simp [Table.new]

theorem find_or_create_known (t : Table) (seen : List String) (h : Rep t seen)
    (n : String) (hn : n ∈ seen) :
    find_or_create_event (some t) n = (seen.indexOf n + 1, some t) := by
  simp [find_or_create_event, h.2.2.1 n, hn]

theorem find_or_create_fresh (t : Table) (seen : List String) (h : Rep t seen)
    (n : String) (hn : n ∉ seen) :
    ∃ t2, find_or_create_event (some t) n = (seen.length + 1, some t2) ∧
      Rep t2 (seen ++ [n]) := by
  refine ⟨⟨fun i => if i = t.next_index then some n else t.names i,
    fun m => if m = n then some t.next_index else t.indices m, t.next_index + 1⟩, ?_, ?_⟩
  · simp [find_or_create_event, h.2.2.1 n, hn, h.2.1]
  · refine ⟨?_, ?_, ?_, ?_⟩
    · exact List.nodup_append.mpr ⟨h.1, List.nodup_singleton n, by simpa using hn⟩
    · simp [h.2.1]
    · intro m
      by_cases hm : m = n
      · subst hm
        simp [List.indexOf_append_of_not_mem hn, h.2.1]
      · by_cases hms : m ∈ seen
        · simp [hm, hms, h.2.2.1 m, List.indexOf_append_of_mem hms]
        · simp [hm, hms, h.2.2.1 m]
    · intro i
      show (if i = t.next_index then some n else t.names i) = _
      rw [h.2.1, h.2.2.2 i, List.length_append, List.length_singleton]
      by_cases hi : i = seen.length + 1
      · subst hi
        simp
      · rw [if_neg hi]
        by_cases hi2 : 1 ≤ i ∧ i ≤ seen.length
        · have h3 : i - 1 < seen.length := by omega
          have h4 : 1 ≤ i ∧ i ≤ seen.length + 1 := by omega
          rw [if_pos hi2, if_pos h4, List.getElem?_append_left h3]
        · have h4 : ¬ (1 ≤ i ∧ i ≤ seen.length + 1) := by omega
          rw [if_neg hi2, if_neg h4]

theorem find_or_create_none (n : String) :
    find_or_create_event none n = find_or_create_event (some Table.new) n := rfl

theorem first_seen_append (calls seen : List String) :
    ∃ extra, first_seen seen calls = seen ++ extra := by
  induction calls generalizing seen with
  | nil => exact ⟨[], by simp [first_seen]⟩
  | cons n rest ih =>
    by_cases hn : n ∈ seen
    · obtain ⟨e, he⟩ := ih seen
      exact ⟨e, by simpa [first_seen, hn] using he⟩
    · obtain ⟨e, he⟩ := ih (seen ++ [n])
      refine ⟨n :: e, ?_⟩
      have : first_seen seen (n :: rest) = first_seen (seen ++ [n]) rest := by
        simp [first_seen, hn]
      rw [this, he]
      simp

theorem mem_first_seen (calls seen : List String) (n : String) :
    n ∈ first_seen seen calls ↔ n ∈ seen ∨ n ∈ calls := by
  induction calls generalizing seen with
  | nil => simp [first_seen]
  | cons m rest ih =>
    by_cases hm : m ∈ seen
    · have : first_seen seen (m :: rest) = first_seen seen rest := by
        simp [first_seen, hm]
      rw [this, ih]
      constructor
      · rintro (h | h)
        · exact Or.inl h
        · exact Or.inr (List.mem_cons_of_mem _ h)
      · rintro (h | h)
        · exact Or.inl h
        · rcases List.mem_cons.mp h with h | h
          · exact Or.inl (h ▸ hm)
          · exact Or.inr h
    · have : first_seen seen (m :: rest) = first_seen (seen ++ [m]) rest := by
        simp [first_seen, hm]
      rw [this, ih]
      simp only [List.mem_append, List.mem_singleton, List.mem_cons]
      tauto

theorem indexOf_first_seen (calls seen : List String) (n : String) (hn : n ∈ seen) :
    (first_seen seen calls).indexOf n = seen.indexOf n := by
  obtain ⟨e, he⟩ := first_seen_append calls seen
  rw [he, List.indexOf_append_of_mem hn]

/-- What a sequence of calls returns, from a table that holds the names `seen`. -/
theorem intern_all_rep (calls : List String) (t : Table) (seen : List String)
    (h : Rep t seen) :
    (intern_all (some t) calls).1 =
        calls.map (fun n => (first_seen seen calls).indexOf n + 1) ∧
      ∃ t2, (intern_all (some t) calls).2 = some t2 ∧ Rep t2 (first_seen seen calls) := by
  induction calls generalizing t seen with
  | nil => exact ⟨rfl, t, rfl, h⟩
  | cons n rest ih =>
    by_cases hn : n ∈ seen
    · have hfs : first_seen seen (n :: rest) = first_seen seen rest := by
        simp [first_seen, hn]
      have hstep := find_or_create_known t seen h n hn
      obtain ⟨h1, t2, h2, h3⟩ := ih t seen h
      simp only [intern_all, hstep, hfs, List.map_cons]
      refine ⟨?_, t2, h2, h3⟩
      rw [h1, indexOf_first_seen rest seen n hn]
    · have hfs : first_seen seen (n :: rest) = first_seen (seen ++ [n]) rest := by
        simp [first_seen, hn]
      obtain ⟨t1, hstep, hrep⟩ := find_or_create_fresh t seen h n hn
      obtain ⟨h1, t2, h2, h3⟩ := ih t1 (seen ++ [n]) hrep
      simp only [intern_all, hstep, hfs, List.map_cons]
      refine ⟨?_, t2, h2, h3⟩
      rw [h1, indexOf_first_seen rest (seen ++ [n]) n (by simp),
        List.indexOf_append_of_not_mem hn]
      simp

theorem intern_all_repO (calls : List String) (table_ : Option Table) (seen : List String)
    (h : RepO table_ seen) :
    (intern_all table_ calls).1 =
        calls.map (fun n => (first_seen seen calls).indexOf n + 1) ∧
      RepO (intern_all table_ calls).2 (first_seen seen calls) := by
  cases table_ with
  | some t =>
    obtain ⟨h1, t2, h2, h3⟩ := intern_all_rep calls t seen h
    refine ⟨h1, ?_⟩
    rw [h2]
    exact h3
  | none =>
    have hs : seen = [] := h
    subst hs
    cases calls with
    | nil => exact ⟨rfl, rfl⟩
    | cons n rest =>
      have he : intern_all none (n :: rest) = intern_all (some Table.new) (n :: rest) := by
        simp [intern_all, find_or_create_none]
      obtain ⟨h1, t2, h2, h3⟩ := intern_all_rep (n :: rest) Table.new [] rep_new
      rw [he]
      refine ⟨h1, ?_⟩
      rw [h2]
      exact h3

theorem rep_inverse (t : Table) (seen : List String) (h : Rep t seen) (i : Nat) (n : String) :
    t.names i = some n ↔ t.indices n = some i := by
  rw [h.2.2.2 i, h.2.2.1 n]
  constructor
  · intro hi
    by_cases hb : 1 ≤ i ∧ i ≤ seen.length
    · rw [if_pos hb] at hi
      have hlt : i - 1 < seen.length := by omega
      rw [List.getElem?_eq_getElem hlt] at hi
      have hn : seen[i - 1] = n := Option.some.inj hi
      have hmem : n ∈ seen := hn ▸ List.getElem_mem hlt
      rw [if_pos hmem]
      have hidx : seen.indexOf n = i - 1 := by
        rw [← hn]
        exact List.indexOf_getElem h.1 (i - 1) hlt
      rw [hidx]
      congr 1
      omega
    · rw [if_neg hb] at hi
      exact absurd hi (by simp)
  · intro hn
    by_cases hmem : n ∈ seen
    · rw [if_pos hmem] at hn
      have hi : seen.indexOf n + 1 = i := Option.some.inj hn
      have hlt : seen.indexOf n < seen.length := List.indexOf_lt_length.mpr hmem
      have hb : 1 ≤ i ∧ i ≤ seen.length := by omega
      rw [if_pos hb]
      have heq : i - 1 = seen.indexOf n := by omega
      rw [heq, List.getElem?_eq_getElem hlt]
      simp
    · rw [if_neg hmem] at hn
      exact absurd hn (by simp)

theorem mem_zip_map (f : String → Nat) (l : List String) (p : String × Nat)
    (hp : p ∈ l.zip (l.map f)) : p.1 ∈ l ∧ p.2 = f p.1 := by
  induction l with
  | nil => simp at hp
  | cons a l ih =>
    simp only [List.map_cons, List.zip_cons_cons, List.mem_cons] at hp
    rcases hp with h | h
    · subst h
      exact ⟨List.mem_cons_self _ _, rfl⟩
    · exact ⟨List.mem_cons_of_mem _ (ih h).1, (ih h).2⟩

theorem intern_all_fresh (calls : List String) :
    (intern_all none calls).1 =
        calls.map (fun n => (first_seen [] calls).indexOf n + 1) ∧
      RepO (intern_all none calls).2 (first_seen [] calls) :=
  intern_all_repO calls none [] rfl

theorem repO_nodup (table_ : Option Table) (seen : List String) (h : RepO table_ seen) :
    seen.Nodup := by
  cases table_ with
  | none =>
    have hs : seen = [] := h
    rw [hs]
    exact List.nodup_nil
  | some t => exact h.1

theorem name_after_calls (table_ : Option Table) (seen : List String)
    (h : RepO table_ seen) (n : String) (hn : n ∈ seen) :
    name table_ ⟨seen.indexOf n + 1⟩ = some n := by
  cases table_ with
  | none =>
    have hs : seen = [] := h
    rw [hs] at hn
    simp at hn
  | some t =>
    have h1 : Rep t seen := h
    show t.names (seen.indexOf n + 1) = some n
    rw [rep_inverse t seen h1, h1.2.2.1 n, if_pos hn]

end Event

/-! ## Lemmas on rendering -/

namespace Process

theorem intercalate_go_append (a b s : String) (l : List String) :
    String.intercalate.go (a ++ b) s l = a ++ String.intercalate.go b s l := by
  induction l generalizing b with
  | nil => simp [String.intercalate.go]
  | cons x xs ih =>
    simp only [String.intercalate.go]
    rw [String.append_assoc, String.append_assoc, ih, String.append_assoc]

theorem render_loop_false (print : Process → String) (l : List Process) (out : String) :
    render_loop print l false out = String.intercalate.go out ", " (l.map print) := by
  induction l generalizing out with
  | nil => simp [render_loop, String.intercalate.go]
  | cons p ps ih =>
    simp only [render_loop, List.map_cons, String.intercalate.go]
    exact ih _

theorem render_loop_true (print : Process → String) (l : List Process) (out : String) :
    render_loop print l true out = out ++ ", ".intercalate (l.map print) := by
  cases l with
  | nil => simp [render_loop, String.intercalate]
  | cons p ps =>
    simp only [render_loop, List.map_cons, String.intercalate, if_true]
    rw [render_loop_false, intercalate_go_append]

/-- Two lists in ascending order of index with the same elements are the same
list, when different elements have different indices. -/
theorem sorted_by_index_unique (index : Process → Nat) :
    ∀ (l1 l2 : List Process), l1.Perm l2 →
      l1.Sorted (fun p1 p2 => index p1 ≤ index p2) →
      l2.Sorted (fun p1 p2 => index p1 ≤ index p2) →
      (∀ x ∈ l1, ∀ y ∈ l1, index x = index y → x = y) → l1 = l2
  | [], l2, hp, _, _, _ => (List.Perm.nil_eq hp)
  | a :: t1, [], hp, _, _, _ => absurd hp.symm (by simp)
  | a :: t1, b :: t2, hp, hs1, hs2, hinj => by
      have ha2 : a ∈ b :: t2 := hp.subset (List.mem_cons_self _ _)
      have hb1 : b ∈ a :: t1 := hp.symm.subset (List.mem_cons_self _ _)
      have hab : index a ≤ index b := by
        rcases List.mem_cons.mp hb1 with h | h
        · rw [h]
        · exact List.rel_of_sorted_cons hs1 b h
      have hba : index b ≤ index a := by
        rcases List.mem_cons.mp ha2 with h | h
        · rw [h]
        · exact List.rel_of_sorted_cons hs2 a h
      have heq : a = b :=
        hinj a (List.mem_cons_self _ _) b hb1 (Nat.le_antisymm hab hba)
      subst heq
      have ht := sorted_by_index_unique index t1 t2 (List.Perm.cons_inv hp)
        hs1.of_cons hs2.of_cons
        (fun x hx y hy => hinj x (List.mem_cons_of_mem _ hx) y (List.mem_cons_of_mem _ hy))
      rw [ht]

theorem sort_by_index_perm (index : Process → Nat) (l1 l2 : List Process)
    (hp : l1.Perm l2) (hinj : ∀ x ∈ l2, ∀ y ∈ l2, index x = index y → x = y) :
    sort_by_index index l1 = sort_by_index index l2 := by
  haveI : IsTotal Process (fun p1 p2 => index p1 ≤ index p2) :=
    ⟨fun x y => Nat.le_total (index x) (index y)⟩
  haveI : IsTrans Process (fun p1 p2 => index p1 ≤ index p2) :=
    ⟨fun _ _ _ h1 h2 => Nat.le_trans h1 h2⟩
  have h1 := List.perm_insertionSort (fun p1 p2 => index p1 ≤ index p2) l1
  have h2 := List.perm_insertionSort (fun p1 p2 => index p1 ≤ index p2) l2
  have s1 := List.sorted_insertionSort (fun p1 p2 : Process => index p1 ≤ index p2) l1
  have s2 := List.sorted_insertionSort (fun p1 p2 : Process => index p1 ≤ index p2) l2
  refine sorted_by_index_unique index _ _ ((h1.trans hp).trans h2.symm) s1 s2 ?_
  intro x hx y hy
  exact hinj x (hp.subset (h1.subset hx)) y (hp.subset (h1.subset hy))

end Process

/-! ## Lemmas on hashing and equality -/

namespace Process

theorem hash_each_eq_map (h : Hasher) (ps : List Process) :
    hash_each h ps = ps.map (fun p => (p, hash h p)) := by
  induction ps with
  | nil => simp [hash_each]
  | cons p ps ih => simp [hash_each, ih]

/-- Sorting the pairs by the key of the node and reading the hashes is sorting
the nodes and hashing each: `Set.hash_sorted` on the paired elements is
`Process::Set::hash`. -/
theorem hash_sorted_eq_hash (h : Hasher) (ps : List Process) :
    Set.hash_sorted h (hash_each h ps) = Set.hash h ps := by
  unfold Set.hash_sorted Set.hash
  rw [hash_each_eq_map]
  have hm := List.map_insertionSort (fun x y : Process => code x ≤ code y)
    (fun x y : Process × Nat => code x.1 ≤ code y.1)
    (fun p => (p, hash h p)) ps (fun a _ b _ => Iff.rfl)
  rw [← hm, List.map_map]
  rfl

theorem Set.perm_of_equals (ps qs : Process.Set) (hnd : ps.Nodup)
    (he : Set.equals ps qs = true) : ps.Perm qs := by
  simp only [Set.equals, Bool.and_eq_true, decide_eq_true_eq, List.all_eq_true] at he
  have hsub : ps ⊆ qs := fun x hx => he.2 x hx
  exact (List.subperm_of_subset hnd hsub).perm_of_length_le (Nat.le_of_eq he.1.symm)

theorem Set.hash_perm (h : Hasher) (ps qs : Process.Set) (hp : ps.Perm qs) :
    Set.hash h ps = Set.hash h qs := by
  unfold Set.hash
  have h1 := List.perm_insertionSort (fun x y => code x ≤ code y) ps
  have h2 := List.perm_insertionSort (fun x y => code x ≤ code y) qs
  have hs := List.eq_of_perm_of_sorted ((h1.trans hp).trans h2.symm)
    (List.sorted_insertionSort (fun x y => code x ≤ code y) ps)
    (List.sorted_insertionSort (fun x y => code x ≤ code y) qs)
  rw [hs]

theorem kind_eq_of_equals (P Q : Process) (he : equals P Q = true) : kind P = kind Q := by
  cases P <;> cases Q <;>
    simp [equals, Stop.equals, InternalChoice.equals, kind] at he ⊢

theorem hash_eq_of_equals (h : Hasher) (P : Process) :
    ∀ Q, wf P = true → equals P Q = true → hash h P = hash h Q := by
  induction P using induction_on with
  | hStop =>
    intro Q _ he
    cases Q <;> simp [equals, Stop.equals] at he
    rfl
  | hSkip =>
    intro Q _ he
    cases Q <;> simp [equals] at he
    rfl
  | hPrefix a p ih =>
    intro Q hw he
    cases Q <;> simp [equals] at he
    rename_i b q
    simp only [wf] at hw
    simp only [hash, he.1, ih q hw he.2]
  | hInternal ps _ =>
    intro Q hw he
    cases Q <;> simp [equals, InternalChoice.equals] at he
    rename_i qs
    simp only [wf, decide_eq_true_eq] at hw
    simp only [hash, hash_sorted_eq_hash,
      Set.hash_perm h ps qs (Set.perm_of_equals ps qs hw he)]
  | hExternal ps _ =>
    intro Q hw he
    cases Q <;> simp [equals] at he
    rename_i qs
    simp only [wf, decide_eq_true_eq] at hw
    simp only [hash, hash_sorted_eq_hash,
      Set.hash_perm h ps qs (Set.perm_of_equals ps qs hw he)]
  | hSeq p q ihp ihq =>
    intro Q hw he
    cases Q <;> simp [equals] at he
    rename_i p2 q2
    simp only [wf, Bool.and_eq_true] at hw
    simp only [hash, ihp p2 hw.1 he.1, ihq q2 hw.2 he.2]

end Process

/-! ## Lemmas on the sink of `afters` -/

namespace Process

theorem aftersInner_frame (xs : List Process) (ps_prime out : Process.Set) (x : Process) :
    (ExternalChoice.aftersInner xs ps_prime out).1 =
        (ExternalChoice.aftersInner xs ps_prime Set.empty).1 ∧
      (x ∈ (ExternalChoice.aftersInner xs ps_prime out).2 ↔
        x ∈ out ∨ x ∈ (ExternalChoice.aftersInner xs ps_prime Set.empty).2) := by
  induction xs generalizing ps_prime out with
  | nil => simp [ExternalChoice.aftersInner, Set.empty]
  | cons y ys ih =>
    simp only [ExternalChoice.aftersInner]
    have h1 := ih (Set.erase (Set.insert ps_prime y) y)
      (Set.insert out (external_choice (Set.insert ps_prime y)))
    have h2 := ih (Set.erase (Set.insert ps_prime y) y)
      (Set.insert Set.empty (external_choice (Set.insert ps_prime y)))
    refine ⟨h1.1.trans h2.1.symm, ?_⟩
    rw [h1.2, h2.2, Set.mem_insert, Set.mem_insert]
    simp only [Set.empty, List.not_mem_nil, or_false]
    tauto

theorem aftersTau_frame (ps : List Process) (ps_prime out : Process.Set) (x : Process) :
    (ExternalChoice.aftersTau ps ps_prime out).1 =
        (ExternalChoice.aftersTau ps ps_prime Set.empty).1 ∧
      (x ∈ (ExternalChoice.aftersTau ps ps_prime out).2 ↔
        x ∈ out ∨ x ∈ (ExternalChoice.aftersTau ps ps_prime Set.empty).2) := by
  induction ps generalizing ps_prime out with
  | nil => simp [ExternalChoice.aftersTau, Set.empty]
  | cons p rest ih =>
    simp only [ExternalChoice.aftersTau]
    have hi := aftersInner_frame (afters p Event.tau Set.empty) (Set.erase ps_prime p) out
    rw [(hi x).1]
    have h1 := ih
      (Set.insert (ExternalChoice.aftersInner (afters p Event.tau Set.empty)
        (Set.erase ps_prime p) Set.empty).1 p)
      (ExternalChoice.aftersInner (afters p Event.tau Set.empty) (Set.erase ps_prime p) out).2
    have h2 := ih
      (Set.insert (ExternalChoice.aftersInner (afters p Event.tau Set.empty)
        (Set.erase ps_prime p) Set.empty).1 p)
      (ExternalChoice.aftersInner (afters p Event.tau Set.empty)
        (Set.erase ps_prime p) Set.empty).2
    refine ⟨h1.1.trans h2.1.symm, ?_⟩
    rw [h1.2, h2.2, (hi x).2]
    tauto

/-- What `afters` leaves in its sink is what the sink held and what `afters`
leaves in an empty sink. -/
theorem mem_afters_frame (P : Process) (a : Event) (out : Process.Set) (x : Process) :
    x ∈ afters P a out ↔ x ∈ out ∨ x ∈ afters P a Set.empty := by
  cases P with
  | Stop => simp [afters, Stop.afters, Set.empty]
  | Skip =>
    by_cases h : a = Event.tick <;> simp [afters, h, Set.mem_insert, Set.empty]
    tauto
  | Prefix b p =>
    by_cases h : a = b <;> simp [afters, h, Set.mem_insert, Set.empty]
    tauto
  | InternalChoice ps =>
    by_cases h : a = Event.tau <;>
      simp [afters, InternalChoice.afters, h, Set.mem_insertAll, Set.empty]
  | ExternalChoice ps =>
    by_cases h : a = Event.tau
    · simp only [afters, h, if_true]
      exact (aftersTau_frame ps ps out x).2
    · simp only [afters, h, if_false, mem_aftersOther]
      simp [Set.empty]
  | SequentialComposition p q =>
    by_cases h : a = Event.tick
    · subst h
      have h1 := afters_seq_tick p q out
      have h2 := afters_seq_tick p q Set.empty
      simp only [sequential_composition] at h1 h2
      rw [h1, h2]
      simp [Set.empty]
    · have h1 := mem_afters_seq p q a h out x
      have h2 := mem_afters_seq p q a h Set.empty x
      simp only [sequential_composition] at h1 h2
      rw [h1, h2]
      simp [Set.empty]

theorem mem_foldl_afters_tau (l : List Process) (acc : Process.Set) (x : Process) :
    x ∈ l.foldl (fun new_processes process => afters process Event.tau new_processes) acc ↔
      x ∈ acc ∨ ∃ p ∈ l, x ∈ afters p Event.tau Set.empty := by
  induction l generalizing acc with
  | nil => simp
  | cons p ps ih =>
    rw [List.foldl_cons, ih, mem_afters_frame]
    simp only [List.mem_cons, exists_eq_or_imp]
    constructor
    · rintro ((h | h) | h)
      · exact Or.inl h
      · exact Or.inr (Or.inl h)
      · exact Or.inr (Or.inr h)
    · rintro (h | h | h)
      · exact Or.inl (Or.inl h)
      · exact Or.inl (Or.inr h)
      · exact Or.inr h

theorem Set.mem_tau_successors (s : Process.Set) (x : Process) :
    x ∈ Set.tau_successors s ↔ ∃ p ∈ s, x ∈ afters p Event.tau Set.empty := by
  unfold Set.tau_successors
  rw [mem_foldl_afters_tau]
  simp [Set.empty]

theorem Set.mem_tau_close_step (s : Process.Set) (x : Process) :
    x ∈ Set.tau_close_step s ↔ x ∈ s ∨ ∃ p ∈ s, x ∈ afters p Event.tau Set.empty := by
  unfold Set.tau_close_step
  rw [Set.mem_insertAll, Set.mem_tau_successors]

end Process

/-! ## Every τ-successor is smaller -/

namespace Process

theorem sizeList_eq_sum (l : List Process) : sizeList l = (l.map size).sum := by
  induction l with
  | nil => simp [sizeList]
  | cons p ps ih => simp [sizeList, ih]

theorem sizeList_le_of_subperm (l1 l2 : List Process) (h : l1.Subperm l2) :
    sizeList l1 ≤ sizeList l2 := by
  obtain ⟨l, hperm, hsub⟩ := h
  rw [sizeList_eq_sum, sizeList_eq_sum, ← (hperm.map size).sum_eq]
  exact (hsub.map size).sum_le_sum (fun _ _ => Nat.zero_le _)

theorem size_le_sizeList (l : List Process) (x : Process) (hx : x ∈ l) :
    size x ≤ sizeList l := by
  induction l with
  | nil => simp at hx
  | cons p ps ih =>
    simp only [sizeList]
    rcases List.mem_cons.mp hx with h | h
    · rw [h]
      omega
    · have := ih h
      omega

theorem Set.insert_perm (s : Process.Set) (p : Process) (hp : p ∉ s) :
    (Set.insert s p).Perm (p :: s) := by
  unfold Set.insert
  rw [if_neg hp]
  exact List.perm_orderedInsert _ p s

theorem Set.sizeList_insert_le (s : Process.Set) (p : Process) :
    sizeList (Set.insert s p) ≤ size p + sizeList s := by
  by_cases hp : p ∈ s
  · simp only [Set.insert, if_pos hp]
    omega
  · exact sizeList_le_of_subperm _ (p :: s) (Set.insert_perm s p hp).subperm

theorem Set.erase_sublist (s : Process.Set) (p : Process) : (Set.erase s p).Sublist s :=
  List.filter_sublist s

theorem Set.not_mem_erase (s : Process.Set) (p : Process) : p ∉ Set.erase s p := by
  simp [Set.mem_erase]

theorem Set.erase_insert_subperm (s : Process.Set) (p : Process) :
    (Set.erase (Set.insert s p) p).Subperm s := by
  by_cases hp : p ∈ s
  · simp only [Set.insert, if_pos hp]
    exact (Set.erase_sublist s p).subperm
  · have h1 : (Set.erase (Set.insert s p) p).Perm (Set.erase (p :: s) p) :=
      (Set.insert_perm s p hp).filter _
    have h2 : Set.erase (p :: s) p = Set.erase s p := by
      simp [Set.erase]
    rw [h2] at h1
    exact h1.subperm.trans (Set.erase_sublist s p).subperm

theorem aftersInner_subperm (xs : List Process) (ps_prime out : Process.Set) :
    (ExternalChoice.aftersInner xs ps_prime out).1.Subperm ps_prime := by
  induction xs generalizing ps_prime out with
  | nil => exact List.Subperm.refl _
  | cons y ys ih =>
    simp only [ExternalChoice.aftersInner]
    exact (ih _ _).trans (Set.erase_insert_subperm ps_prime y)

theorem aftersInner_size (p : Process) (N : Nat) (xs : List Process)
    (ps_prime out : Process.Set) (hxs : ∀ y ∈ xs, size y < size p)
    (hN : size p + sizeList ps_prime ≤ N) :
    ∀ x ∈ (ExternalChoice.aftersInner xs ps_prime out).2, x ∈ out ∨ size x < N + 1 := by
  induction xs generalizing ps_prime out with
  | nil =>
    intro x hx
    exact Or.inl hx
  | cons y ys ih =>
    intro x hx
    simp only [ExternalChoice.aftersInner] at hx
    have hy : size y < size p := hxs y (List.mem_cons_self _ _)
    have hle := sizeList_le_of_subperm _ _ (Set.erase_insert_subperm ps_prime y)
    have hins := Set.sizeList_insert_le ps_prime y
    rcases ih _ _ (fun z hz => hxs z (List.mem_cons_of_mem _ hz)) (by omega) x hx with h | h
    · rcases (Set.mem_insert _ _ _).mp h with h | h
      · right
        rw [h]
        simp only [external_choice, size]
        omega
      · exact Or.inl h
    · exact Or.inr h

theorem aftersTau_size (ps : List Process) (order : List Process)
    (ps_prime out : Process.Set) (hW : ps_prime.Subperm ps)
    (hmem : ∀ p ∈ order, p ∈ ps)
    (hlt : ∀ p ∈ order, ∀ y ∈ afters p Event.tau Set.empty, size y < size p) :
    ∀ x ∈ (ExternalChoice.aftersTau order ps_prime out).2,
      x ∈ out ∨ size x < sizeList ps + 1 := by
  induction order generalizing ps_prime out with
  | nil =>
    intro x hx
    exact Or.inl hx
  | cons p rest ih =>
    intro x hx
    simp only [ExternalChoice.aftersTau] at hx
    have hp : p ∈ ps := hmem p (List.mem_cons_self _ _)
    have h1 : (Set.erase ps_prime p).Subperm ps :=
      (Set.erase_sublist ps_prime p).subperm.trans hW
    have h2 : (p :: Set.erase ps_prime p).Subperm ps :=
      List.cons_subperm_of_not_mem_of_mem (Set.not_mem_erase ps_prime p) hp h1
    have hN : size p + sizeList (Set.erase ps_prime p) ≤ sizeList ps :=
      sizeList_le_of_subperm _ _ h2
    have h3 := aftersInner_subperm (afters p Event.tau Set.empty) (Set.erase ps_prime p) out
    have hnot : p ∉ (ExternalChoice.aftersInner (afters p Event.tau Set.empty)
        (Set.erase ps_prime p) out).1 :=
      fun h => Set.not_mem_erase ps_prime p (h3.subset h)
    have h4 : (Set.insert (ExternalChoice.aftersInner (afters p Event.tau Set.empty)
        (Set.erase ps_prime p) out).1 p).Subperm ps :=
      (Set.insert_perm _ p hnot).subperm.trans
        (List.cons_subperm_of_not_mem_of_mem hnot hp (h3.trans h1))
    rcases ih _ _ h4 (fun q hq => hmem q (List.mem_cons_of_mem _ hq))
        (fun q hq => hlt q (List.mem_cons_of_mem _ hq)) x hx with h | h
    · exact aftersInner_size p (sizeList ps) _ _ out (hlt p (List.mem_cons_self _ _)) hN x h
    · exact Or.inr h

/-- Every τ-successor of a term is smaller than the term. -/
theorem size_afters_tau_lt (P : Process) :
    ∀ x ∈ afters P Event.tau Set.empty, size x < size P := by
  induction P using induction_on with
  | hStop => simp [afters, Stop.afters, Set.empty]
  | hSkip => simp [afters, tau_ne_tick, Set.empty]
  | hPrefix a p _ =>
    intro x hx
    by_cases h : Event.tau = a
    · simp only [afters, h, if_true, Set.mem_insert, Set.empty, List.not_mem_nil,
        or_false] at hx
      rw [hx]
      simp only [size]
      omega
    · simp [afters, h, Set.empty] at hx
  | hInternal ps _ =>
    intro x hx
    simp only [afters, InternalChoice.afters, if_true, Set.mem_insertAll, Set.empty,
      List.not_mem_nil, false_or] at hx
    have := size_le_sizeList ps x hx
    simp only [size]
    omega
  | hExternal ps ih =>
    intro x hx
    simp only [afters, if_true] at hx
    rcases aftersTau_size ps ps ps Set.empty (List.Subperm.refl ps) (fun p hp => hp) ih x hx
      with h | h
    · simp [Set.empty] at h
    · simpa only [size] using h
  | hSeq p q ihp _ =>
    intro x hx
    have hm := (mem_afters_seq p q Event.tau tau_ne_tick Set.empty x).mp hx
    rcases hm with h | ⟨p1, hp1, rfl⟩ | ⟨_, _, rfl⟩
    · simp [Set.empty] at h
    · have := ihp p1 hp1
      simp only [sequential_composition, size]
      omega
    · simp only [size]
      omega

end Process

/-! ## The loop of `tau_close` -/

namespace Process

namespace Set

theorem length_insert_of_mem (s : Process.Set) (p : Process) (hp : p ∈ s) :
    Set.insert s p = s := by
  simp [Set.insert, hp]

theorem length_insert_of_not_mem (s : Process.Set) (p : Process) (hp : p ∉ s) :
    (Set.insert s p).length = s.length + 1 := by
  rw [(Set.insert_perm s p hp).length_eq]
  rfl

theorem insertAll_eq_self (xs : List Process) (s : Process.Set) (h : ∀ x ∈ xs, x ∈ s) :
    Set.insertAll s xs = s := by
  induction xs generalizing s with
  | nil => rfl
  | cons y ys ih =>
    have hy : y ∈ s := h y (List.mem_cons_self _ _)
    have h1 : Set.insertAll s (y :: ys) = Set.insertAll (Set.insert s y) ys := rfl
    rw [h1, length_insert_of_mem s y hy]
    exact ih s (fun x hx => h x (List.mem_cons_of_mem _ hx))

theorem length_le_insertAll (xs : List Process) (s : Process.Set) :
    s.length ≤ (Set.insertAll s xs).length := by
  induction xs generalizing s with
  | nil => exact Nat.le_refl _
  | cons y ys ih =>
    have h1 : Set.insertAll s (y :: ys) = Set.insertAll (Set.insert s y) ys := rfl
    rw [h1]
    by_cases hy : y ∈ s
    · rw [length_insert_of_mem s y hy]
      exact ih s
    · have := ih (Set.insert s y)
      rw [length_insert_of_not_mem s y hy] at this
      omega

theorem length_lt_insertAll (xs : List Process) (s : Process.Set)
    (h : ∃ x ∈ xs, x ∉ s) : s.length < (Set.insertAll s xs).length := by
  induction xs generalizing s with
  | nil =>
    obtain ⟨x, hx, _⟩ := h
    simp at hx
  | cons y ys ih =>
    have h1 : Set.insertAll s (y :: ys) = Set.insertAll (Set.insert s y) ys := rfl
    rw [h1]
    by_cases hy : y ∈ s
    · rw [length_insert_of_mem s y hy]
      obtain ⟨x, hx, hxs⟩ := h
      rcases List.mem_cons.mp hx with hxy | hxy
      · rw [hxy] at hxs
        exact absurd hy hxs
      · exact ih s ⟨x, hxy, hxs⟩
    · have := length_le_insertAll ys (Set.insert s y)
      rw [length_insert_of_not_mem s y hy] at this
      omega

/-- On a set closed under τ-successors a turn of the loop changes nothing. -/
theorem tau_close_step_of_closed (s : Process.Set)
    (hc : ∀ P ∈ s, ∀ Q ∈ afters P Event.tau Set.empty, Q ∈ s) :
    Set.tau_close_step s = s := by
  unfold Set.tau_close_step
  apply insertAll_eq_self
  intro x hx
  obtain ⟨p, hp, hxp⟩ := (Set.mem_tau_successors s x).mp hx
  exact hc p hp x hxp

/-- On a set that is not closed a turn of the loop adds an element. -/
theorem length_lt_tau_close_step (s : Process.Set)
    (hc : ∃ P ∈ s, ∃ Q ∈ afters P Event.tau Set.empty, Q ∉ s) :
    s.length < (Set.tau_close_step s).length := by
  unfold Set.tau_close_step
  apply length_lt_insertAll
  obtain ⟨p, hp, q, hq, hqs⟩ := hc
  exact ⟨q, (Set.mem_tau_successors s q).mpr ⟨p, hp, hq⟩, hqs⟩

theorem tau_close_loop_of_closed (fuel : Nat) (s : Process.Set)
    (hc : ∀ P ∈ s, ∀ Q ∈ afters P Event.tau Set.empty, Q ∈ s) :
    Set.tau_close_loop (fuel + 1) s = some s := by
  simp [Set.tau_close_loop, tau_close_step_of_closed s hc]

theorem tau_close_loop_of_not_closed (fuel : Nat) (s : Process.Set)
    (hc : ∃ P ∈ s, ∃ Q ∈ afters P Event.tau Set.empty, Q ∉ s) :
    Set.tau_close_loop (fuel + 1) s = Set.tau_close_loop fuel (Set.tau_close_step s) := by
  have := length_lt_tau_close_step s hc
  simp only [Set.tau_close_loop]
  rw [if_neg (by omega)]

/-- The loop returns as soon as it is given more turns than the size of the
largest element that still has a successor outside the set, and what it returns
is the smallest superset closed under τ-successors. -/
theorem tau_close_loop_spec (m : Nat) :
    ∀ (s : Process.Set) (fuel : Nat),
      (∀ x ∈ s, (∃ y ∈ afters x Event.tau Set.empty, y ∉ s) → size x ≤ m) → m < fuel →
      ∃ R, Set.tau_close_loop fuel s = some R ∧ (∀ x ∈ s, x ∈ R) ∧
        (∀ P ∈ R, ∀ Q ∈ afters P Event.tau Set.empty, Q ∈ R) ∧
        (∀ T : Process → Prop, (∀ x ∈ s, T x) → TauClosed T → ∀ x ∈ R, T x) := by
  induction m with
  | zero =>
    intro s fuel hopen hfuel
    obtain ⟨f, rfl⟩ : ∃ f, fuel = f + 1 := ⟨fuel - 1, by omega⟩
    have hc : ∀ P ∈ s, ∀ Q ∈ afters P Event.tau Set.empty, Q ∈ s := by
      intro P hP Q hQ
      by_contra hQs
      have h1 := hopen P hP ⟨Q, hQ, hQs⟩
      have h2 := size_afters_tau_lt P Q hQ
      omega
    exact ⟨s, tau_close_loop_of_closed f s hc, fun x hx => hx, hc, fun T hT _ x hx => hT x hx⟩
  | succ m ih =>
    intro s fuel hopen hfuel
    obtain ⟨f, rfl⟩ : ∃ f, fuel = f + 1 := ⟨fuel - 1, by omega⟩
    by_cases hc : ∀ P ∈ s, ∀ Q ∈ afters P Event.tau Set.empty, Q ∈ s
    · exact ⟨s, tau_close_loop_of_closed f s hc, fun x hx => hx, hc,
        fun T hT _ x hx => hT x hx⟩
    · have hnc : ∃ P ∈ s, ∃ Q ∈ afters P Event.tau Set.empty, Q ∉ s := by
        by_contra hno
        apply hc
        intro P hP Q hQ
        by_contra hQs
        exact hno ⟨P, hP, Q, hQ, hQs⟩
      have hopen2 : ∀ x ∈ Set.tau_close_step s,
          (∃ y ∈ afters x Event.tau Set.empty, y ∉ Set.tau_close_step s) → size x ≤ m := by
        intro x hx ⟨y, hy, hys⟩
        rcases (Set.mem_tau_close_step s x).mp hx with hxs | ⟨z, hz, hxz⟩
        · exact absurd ((Set.mem_tau_close_step s y).mpr (Or.inr ⟨x, hxs, hy⟩)) hys
        · by_cases hxs : x ∈ s
          · exact absurd ((Set.mem_tau_close_step s y).mpr (Or.inr ⟨x, hxs, hy⟩)) hys
          · have h1 := hopen z hz ⟨x, hxz, hxs⟩
            have h2 := size_afters_tau_lt z x hxz
            omega
      obtain ⟨R, hR, hsub, hclosed, hmin⟩ := ih (Set.tau_close_step s) f hopen2 (by omega)
      refine ⟨R, ?_, ?_, hclosed, ?_⟩
      · rw [tau_close_loop_of_not_closed f s hnc]
        exact hR
      · intro x hx
        exact hsub x ((Set.mem_tau_close_step s x).mpr (Or.inl hx))
      · intro T hT hTc x hx
        apply hmin T _ hTc x hx
        intro z hz
        rcases (Set.mem_tau_close_step s z).mp hz with h | ⟨p, hp, hzp⟩
        · exact hT z h
        · exact hTc p (hT p hp) z hzp

theorem tau_close_loop_unique (f1 : Nat) :
    ∀ (f2 : Nat) (s R1 R2 : Process.Set), Set.tau_close_loop f1 s = some R1 →
      Set.tau_close_loop f2 s = some R2 → R1 = R2 := by
  induction f1 with
  | zero =>
    intro f2 s R1 R2 h1
    simp [Set.tau_close_loop] at h1
  | succ f1 ih =>
    intro f2 s R1 R2 h1 h2
    cases f2 with
    | zero => simp [Set.tau_close_loop] at h2
    | succ f2 =>
      simp only [Set.tau_close_loop] at h1 h2
      by_cases hl : s.length = (Set.tau_close_step s).length
      · rw [if_pos hl] at h1 h2
        exact (Option.some.inj h1).symm.trans (Option.some.inj h2)
      · rw [if_neg hl] at h1 h2
        exact ih f2 _ R1 R2 h1 h2

/-- With more than `sizeList s` turns the loop returns, and it returns
`tau_close s`. -/
theorem tau_close_loop_eq (s : Process.Set) (fuel : Nat) (hfuel : sizeList s < fuel) :
    Set.tau_close_loop fuel s = some (Set.tau_close s) := by
  have hopen : ∀ x ∈ s, (∃ y ∈ afters x Event.tau Set.empty, y ∉ s) → size x ≤ sizeList s :=
    fun x hx _ => size_le_sizeList s x hx
  obtain ⟨R, hR, _⟩ := tau_close_loop_spec (sizeList s) s fuel hopen hfuel
  obtain ⟨R0, hR0, _⟩ := tau_close_loop_spec (sizeList s) s (sizeList s + 1) hopen
    (Nat.lt_succ_self _)
  have hRR : R = R0 := tau_close_loop_unique _ _ s R R0 hR hR0
  rw [hR, hRR]
  simp [Set.tau_close, hR0]

theorem tau_close_spec (s : Process.Set) :
    (∀ x ∈ s, x ∈ Set.tau_close s) ∧
    (∀ P ∈ Set.tau_close s, ∀ Q ∈ afters P Event.tau Set.empty, Q ∈ Set.tau_close s) ∧
    (∀ T : Process → Prop, (∀ x ∈ s, T x) → TauClosed T → ∀ x ∈ Set.tau_close s, T x) := by
  have hopen : ∀ x ∈ s, (∃ y ∈ afters x Event.tau Set.empty, y ∉ s) → size x ≤ sizeList s :=
    fun x hx _ => size_le_sizeList s x hx
  obtain ⟨R, hR, h1, h2, h3⟩ := tau_close_loop_spec (sizeList s) s (sizeList s + 1) hopen
    (Nat.lt_succ_self _)
  have hE := tau_close_loop_eq s (sizeList s + 1) (Nat.lt_succ_self _)
  rw [hR] at hE
  rw [← Option.some.inj hE]
  exact ⟨h1, h2, h3⟩

theorem mem_tau_close_iff (s : Process.Set) (P : Process) :
    P ∈ Set.tau_close s ↔ TauReachable s P := by
  obtain ⟨h1, h2, h3⟩ := tau_close_spec s
  constructor
  · intro hP
    exact h3 (TauReachable s) (fun x hx => TauReachable.seed x hx)
      (fun A hA B hB => TauReachable.step A B hA hB) P hP
  · intro hP
    induction hP with
    | seed A hA => exact h1 A hA
    | step A B _ hB ih => exact h2 A ih B hB

theorem tau_close_idempotent (s : Process.Set) :
    Set.tau_close (Set.tau_close s) = Set.tau_close s := by
  obtain ⟨_, h2, _⟩ := tau_close_spec s
  have hloop := tau_close_loop_of_closed (sizeList (Set.tau_close s)) (Set.tau_close s) h2
  have hdef : Set.tau_close (Set.tau_close s) =
      (Set.tau_close_loop (sizeList (Set.tau_close s) + 1) (Set.tau_close s)).getD
        (Set.tau_close s) := rfl
  rw [hdef, hloop]
  rfl

end Set

end Process

/-! ## Lemmas on event sets and bags -/

namespace Event

theorem sort_perm (es fs : List Event) (hp : es.Perm fs) : sort es = sort fs := by
  unfold sort
  have h1 := List.perm_insertionSort (fun e1 e2 : Event => e1.index ≤ e2.index) es
  have h2 := List.perm_insertionSort (fun e1 e2 : Event => e1.index ≤ e2.index) fs
  exact List.eq_of_perm_of_sorted ((h1.trans hp).trans h2.symm)
    (List.sorted_insertionSort (fun e1 e2 : Event => e1.index ≤ e2.index) es)
    (List.sorted_insertionSort (fun e1 e2 : Event => e1.index ≤ e2.index) fs)

theorem Set.event_loop_false (table_ : Option Table) (l : List Event) (out : String) :
    Set.render_loop table_ l false out =
      String.intercalate.go out ", " (l.map (fun event => (name table_ event).getD "")) := by
  induction l generalizing out with
  | nil => simp [Set.render_loop, String.intercalate.go]
  | cons e es ih =>
    simp only [Set.render_loop, Event.render, List.map_cons, String.intercalate.go]
    exact ih _

theorem Set.event_loop_true (table_ : Option Table) (l : List Event) (out : String) :
    Set.render_loop table_ l true out =
      out ++ ", ".intercalate (l.map (fun event => (name table_ event).getD "")) := by
  cases l with
  | nil => simp [Set.render_loop, String.intercalate]
  | cons e es =>
    simp only [Set.render_loop, Event.render, List.map_cons, String.intercalate, if_true]
    rw [Set.event_loop_false, Process.intercalate_go_append]

theorem Set.iterate_toFinset (l : List Event) : Set.iterate l.toFinset = sort l.dedup := rfl

theorem Set.toFinset_val_mk (l : List Event) (h : Multiset.Nodup (Quot.mk _ l)) :
    (⟨Quot.mk _ l, h⟩ : Event.Set) = l.toFinset := by
  apply Finset.eq_of_veq
  have hl : l.Nodup := h
  show (Quot.mk _ l : Multiset Event) = (l.dedup : Multiset Event)
  rw [hl.dedup]
  rfl

theorem Set.exists_list (events : Event.Set) : ∃ l : List Event, l.Nodup ∧ l.toFinset = events := by
  rcases events with ⟨s, hs⟩
  induction s using Quot.inductionOn with
  | h l => exact ⟨l, hs, (Set.toFinset_val_mk l hs).symm⟩

theorem Set.iterate_of_list (events : Event.Set) (l : List Event) (hl : l.Nodup)
    (h : l.toFinset = events) : Set.iterate events = sort l := by
  rw [← h, Set.iterate_toFinset, hl.dedup]

theorem sort_strict (l : List Event) (hl : l.Nodup) :
    (sort l).Sorted (fun e1 e2 => e1.index < e2.index) := by
  have hs : (sort l).Sorted (fun e1 e2 => e1.index ≤ e2.index) :=
    List.sorted_insertionSort _ l
  have hn : (sort l).Nodup :=
    (List.perm_insertionSort (fun e1 e2 : Event => e1.index ≤ e2.index) l).nodup_iff.mpr hl
  have hp : (sort l).Pairwise (fun e1 e2 => e1.index ≤ e2.index ∧ e1 ≠ e2) :=
    List.Pairwise.and hs hn
  refine List.Pairwise.imp ?_ hp
  rintro ⟨i⟩ ⟨j⟩ ⟨hle, hne⟩
  simp only [ne_eq, Event.mk.injEq] at hne
  exact Nat.lt_of_le_of_ne hle hne

theorem mem_sort (l : List Event) (e : Event) : e ∈ sort l ↔ e ∈ l :=
  (List.perm_insertionSort (fun e1 e2 : Event => e1.index ≤ e2.index) l).mem_iff

theorem Set.foldl_insert (es : List Event) (out : Event.Set) :
    es.foldl (fun out event => insert event out) out = out ∪ es.toFinset := by
  induction es generalizing out with
  | nil => simp
  | cons e es ih =>
    rw [List.foldl_cons, ih, List.toFinset_cons]
    ext x
    simp only [Finset.mem_union, Finset.mem_insert, List.mem_toFinset]
    tauto

/-- What the loop of `operator<<` writes for an event set: the names of the
elements from `begin()` to `end()`, joined by `, ` between braces. -/
theorem Set.render_eq (table_ : Option Table) (events : Event.Set) (out : String) :
    Set.render table_ events out =
      out ++ "\x7b" ++
        ", ".intercalate
          ((Set.iterate events).map (fun event => (name table_ event).getD "")) ++ "\x7d" := by
  simp only [Set.render, Set.event_loop_true]

end Event

namespace Process

theorem Bag.hash_of_perm (h : Hasher) (ps qs : Process.Bag) (hp : ps.Perm qs) :
    Bag.hash h ps = Bag.hash h qs := by
  unfold Bag.hash
  have h1 := List.perm_insertionSort (fun x y => code x ≤ code y) ps
  have h2 := List.perm_insertionSort (fun x y => code x ≤ code y) qs
  have hs := List.eq_of_perm_of_sorted ((h1.trans hp).trans h2.symm)
    (List.sorted_insertionSort (fun x y => code x ≤ code y) ps)
    (List.sorted_insertionSort (fun x y => code x ≤ code y) qs)
  rw [hs]

/-! ## The sink of `initials` -/

/-- On a sink that does not hold ✔, `initials` only adds to the sink. -/
theorem initials_frame (P : Process) :
    ∀ S : Event.Set, Event.tick ∉ S → initials P S = S ∪ initials P ∅ := by
  induction P using induction_on with
  | hStop => intro S _; simp [initials, Stop.initials]
  | hSkip =>
    intro S _
    simp only [initials]
    ext x
    simp only [Finset.mem_insert, Finset.mem_union, Finset.not_mem_empty, or_false]
    tauto
  | hPrefix a p _ =>
    intro S _
    simp only [initials]
    ext x
    simp only [Finset.mem_insert, Finset.mem_union, Finset.not_mem_empty, or_false]
    tauto
  | hInternal ps _ =>
    intro S _
    simp only [initials, InternalChoice.initials]
    ext x
    simp only [Finset.mem_insert, Finset.mem_union, Finset.not_mem_empty, or_false]
    tauto
  | hExternal ps _ =>
    intro S _
    simp only [initials, initials_loop_eq, Finset.empty_union]
  | hSeq p q ihp _ =>
    intro S hS
    simp only [initials]
    rw [ihp S hS]
    by_cases hk : Event.tick ∈ initials p ∅
    · have hk2 : Event.tick ∈ S ∪ initials p ∅ := Finset.mem_union_right _ hk
      rw [if_pos hk2, if_pos hk]
      ext x
      simp only [Finset.mem_insert, Finset.mem_erase, Finset.mem_union]
      constructor
      · rintro (h | ⟨h1, h2 | h2⟩)
        · exact Or.inr (Or.inl h)
        · exact Or.inl h2
        · exact Or.inr (Or.inr ⟨h1, h2⟩)
      · rintro (h | h | ⟨h1, h2⟩)
        · right
          exact ⟨fun hx => hS (hx ▸ h), Or.inl h⟩
        · exact Or.inl h
        · exact Or.inr ⟨h1, Or.inr h2⟩
    · have hk2 : Event.tick ∉ S ∪ initials p ∅ := by
        simp only [Finset.mem_union, not_or]
        exact ⟨hS, hk⟩
      rw [if_neg hk2, if_neg hk]

/-! ## The working set of `ExternalChoice::afters` -/

theorem Set.erase_insert_of_not_mem (s : Process.Set) (p : Process) (hs : Set.Canonical s)
    (hp : p ∉ s) : Set.erase (Set.insert s p) p = s := by
  apply Set.canonical_ext _ _ (Set.canonical_erase _ p (Set.canonical_insert s p hs)) hs
  intro x
  rw [Set.mem_erase, Set.mem_insert]
  constructor
  · rintro ⟨h | h, hne⟩
    · exact absurd h hne
    · exact h
  · intro h
    exact ⟨Or.inr h, fun hx => hp (hx ▸ h)⟩

theorem Set.insert_erase_of_mem (s : Process.Set) (p : Process) (hs : Set.Canonical s)
    (hp : p ∈ s) : Set.insert (Set.erase s p) p = s := by
  apply Set.canonical_ext _ _ (Set.canonical_insert _ p (Set.canonical_erase s p hs)) hs
  intro x
  rw [Set.mem_insert, Set.mem_erase]
  constructor
  · rintro (h | ⟨h, _⟩)
    · exact h ▸ hp
    · exact h
  · intro h
    by_cases hx : x = p
    · exact Or.inl hx
    · exact Or.inr ⟨h, hx⟩

/-- The inner loop, when no successor is in the working set: the working set
comes back unchanged and one choice is reported for every successor. -/
theorem aftersInner_of_not_mem (xs : List Process) (ps_prime out : Process.Set)
    (hs : Set.Canonical ps_prime) (hxs : ∀ x ∈ xs, x ∉ ps_prime) :
    (ExternalChoice.aftersInner xs ps_prime out).1 = ps_prime ∧
    ∀ y, y ∈ (ExternalChoice.aftersInner xs ps_prime out).2 ↔
      y ∈ out ∨ ∃ x ∈ xs, y = external_choice (Set.insert ps_prime x) := by
  induction xs generalizing out with
  | nil => simp [ExternalChoice.aftersInner]
  | cons x rest ih =>
    have hx : x ∉ ps_prime := hxs x (List.mem_cons_self _ _)
    have hrest : ∀ z ∈ rest, z ∉ ps_prime := fun z hz => hxs z (List.mem_cons_of_mem _ hz)
    simp only [ExternalChoice.aftersInner, Set.erase_insert_of_not_mem ps_prime x hs hx]
    obtain ⟨h1, h2⟩ := ih (Set.insert out (external_choice (Set.insert ps_prime x))) hrest
    refine ⟨h1, ?_⟩
    intro y
    rw [h2, Set.mem_insert]
    simp only [List.mem_cons, exists_eq_or_imp]
    constructor
    · rintro ((h | h) | h)
      · exact Or.inr (Or.inl h)
      · exact Or.inl h
      · exact Or.inr (Or.inr h)
    · rintro (h | h | h)
      · exact Or.inl (Or.inr h)
      · exact Or.inl (Or.inl h)
      · exact Or.inr h

/-- The outer loop, when no τ-successor of an operand is an operand: after any
number of operands the working set is the operand set again, and one choice
was reported for every operand visited and every successor of it. -/
theorem aftersTau_of_disjoint (ps : Process.Set) (hps : Set.Canonical ps)
    (hdisj : ∀ P ∈ ps, ∀ Q ∈ afters P Event.tau Set.empty, Q ∉ ps)
    (order : List Process) (horder : ∀ p ∈ order, p ∈ ps) (out : Process.Set) :
    (ExternalChoice.aftersTau order ps out).1 = ps ∧
    ∀ y, y ∈ (ExternalChoice.aftersTau order ps out).2 ↔
      y ∈ out ∨ ∃ p ∈ order, ∃ q ∈ afters p Event.tau Set.empty,
        y = external_choice (Set.insert (Set.erase ps p) q) := by
  induction order generalizing out with
  | nil => simp [ExternalChoice.aftersTau]
  | cons p rest ih =>
    have hp : p ∈ ps := horder p (List.mem_cons_self _ _)
    have hrest : ∀ z ∈ rest, z ∈ ps := fun z hz => horder z (List.mem_cons_of_mem _ hz)
    have hnot : ∀ x ∈ afters p Event.tau Set.empty, x ∉ Set.erase ps p :=
      fun x hx hmem => hdisj p hp x hx ((Set.mem_erase ps p x).mp hmem).1
    obtain ⟨hi1, hi2⟩ := aftersInner_of_not_mem (afters p Event.tau Set.empty)
      (Set.erase ps p) out (Set.canonical_erase ps p hps) hnot
    simp only [ExternalChoice.aftersTau, hi1, Set.insert_erase_of_mem ps p hps hp]
    obtain ⟨h1, h2⟩ := ih hrest
      (ExternalChoice.aftersInner (afters p Event.tau Set.empty) (Set.erase ps p) out).2
    refine ⟨h1, ?_⟩
    intro y
    rw [h2, hi2]
    simp only [List.mem_cons, exists_eq_or_imp]
    constructor
    · rintro ((h | h) | h)
      · exact Or.inl h
      · exact Or.inr (Or.inl h)
      · exact Or.inr (Or.inr h)
    · rintro (h | h | h)
      · exact Or.inl (Or.inl h)
      · exact Or.inl (Or.inr h)
      · exact Or.inr h

/-- Visiting `done ++ rest` is visiting `rest` from the state that visiting
`done` leaves: the state after `done` is the state at the start of the
iteration of the first element of `rest`. -/
theorem aftersTau_append (done rest : List Process) (ps_prime out : Process.Set) :
    ExternalChoice.aftersTau (done ++ rest) ps_prime out =
      ExternalChoice.aftersTau rest (ExternalChoice.aftersTau done ps_prime out).1
        (ExternalChoice.aftersTau done ps_prime out).2 := by
  induction done generalizing ps_prime out with
  | nil => simp [ExternalChoice.aftersTau]
  | cons p ds ih =>
    simp only [List.cons_append, ExternalChoice.aftersTau]
    exact ih _ _

theorem mem_aftersTauSpec (ps : Process.Set) (y : Process) :
    y ∈ ExternalChoice.aftersTauSpec ps ↔
      ∃ p ∈ ps, ∃ q ∈ afters p Event.tau Set.empty,
        y = external_choice (Set.insert (Set.erase ps p) q) := by
  simp only [ExternalChoice.aftersTauSpec, Finset.mem_biUnion, List.mem_toFinset,
    Finset.mem_image]
  constructor
  · rintro ⟨p, hp, q, hq, rfl⟩
    exact ⟨p, hp, q, hq, rfl⟩
  · rintro ⟨p, hp, q, hq, rfl⟩
    exact ⟨p, hp, q, hq, rfl⟩

end Process

/-! ## The claims -/

open Process Example

/-- C9: for every event `a` (τ and ✔ are events like any other) and every
process `P`, `initials(a → P) = {a}`, `afters(a → P, a) = {P}`, and
`afters(a → P, b) = ∅` for every event `b ≠ a`. -/
theorem Prefix_initials_afters (a : Event) (P : Process) :
    initials (.Prefix a P) ∅ = {a} ∧
    afters (.Prefix a P) a Process.Set.empty = [P] ∧
    ∀ b, b ≠ a → afters (.Prefix a P) b Process.Set.empty = [] := by
  refine ⟨?_, ?_, ?_⟩
  · simp [initials]
  · simp [afters, Process.Set.insert, Process.Set.empty]
  · intro b hb
    simp [afters, hb, Process.Set.empty]

/-- The test `a → b → STOP` (test-operators.cc:286-293): initials `{a}`, afters
on `a` are `{b → STOP}`, afters on τ are empty. -/
theorem Prefix_initials_afters_witness :
    initials a_b_STOP ∅ = {Example.a} ∧
    afters a_b_STOP Example.a Process.Set.empty = [b_STOP] ∧
    Event.tau ≠ Example.a ∧
    afters a_b_STOP Event.tau Process.Set.empty = [] :=
  ⟨(Prefix_initials_afters Example.a b_STOP).1,
    (Prefix_initials_afters Example.a b_STOP).2.1,
    by decide,
    (Prefix_initials_afters Example.a b_STOP).2.2 Event.tau (by decide)⟩

/-- C10: `initials(SKIP) = {✔}`, `afters(SKIP, ✔) = {STOP}`, and
`afters(SKIP, a) = ∅` for every event `a ≠ ✔`, τ included. -/
theorem Skip_initials_afters :
    initials skip ∅ = {Event.tick} ∧
    afters skip Event.tick Process.Set.empty = [stop] ∧
    ∀ a, a ≠ Event.tick → afters skip a Process.Set.empty = [] := by
  refine ⟨?_, ?_, ?_⟩
  · simp [initials, skip]
  · simp [afters, skip, Process.Set.insert, Process.Set.empty]
  · intro b hb
    simp [afters, skip, hb, Process.Set.empty]

/-- The test `SKIP` (test-operators.cc:297-305): no afters on `a` and on τ. -/
theorem Skip_initials_afters_witness :
    Example.a ≠ Event.tick ∧ afters skip Example.a Process.Set.empty = [] ∧
    Event.tau ≠ Event.tick ∧ afters skip Event.tau Process.Set.empty = [] :=
  ⟨by decide, Skip_initials_afters.2.2 Example.a (by decide),
    by decide, Skip_initials_afters.2.2 Event.tau (by decide)⟩

/-- C3: for every external choice `□ Ps`, `initials(□ Ps)` is exactly the
union over `P ∈ Ps` of `initials(P)`, τ and ✔ included; the empty choice has
no initials; and `initials((a → STOP) □ (b → STOP ⊓ c → STOP)) = {a, τ}`. -/
theorem ExternalChoice_initials_eq_union :
    (∀ ps : List Process,
      initials (external_choice ps) ∅ = ps.toFinset.biUnion fun P => initials P ∅) ∧
    initials (external_choice Process.Set.empty) ∅ = ∅ ∧
    initials choice_a_bc ∅ = {Example.a, Event.tau} := by
  refine ⟨?_, ?_, ?_⟩
  · intro ps
    simp [external_choice, initials, initials_loop_eq]
  · simp [external_choice, initials, ExternalChoice.initials, Process.Set.empty]
  · decide

/-- C2: for every external choice `□ Ps` and every event `a ≠ τ` (✔ included),
`afters(□ Ps, a)` is exactly the union over `P ∈ Ps` of `afters(P, a)`: the
successors of the operands themselves, not wrapped in `□`. -/
theorem ExternalChoice_afters_visible (ps : List Process) (a : Event)
    (ha : a ≠ Event.tau) :
    (afters (external_choice ps) a Process.Set.empty).toFinset =
      ps.toFinset.biUnion fun P => (afters P a Process.Set.empty).toFinset := by
  ext x
  simp [external_choice, afters, ha, mem_aftersOther, Process.Set.empty]

/-- The test `(a → STOP) □ (b → STOP)` (test-operators.cc:151-159):
`afters((a → STOP) □ (b → STOP), a) = {STOP}`. -/
theorem ExternalChoice_afters_visible_witness :
    Example.a ≠ Event.tau ∧
    (afters (external_choice [a_STOP, b_STOP]) Example.a Process.Set.empty).toFinset = {stop} ∧
    choice_a_b = external_choice [a_STOP, b_STOP] :=
  ⟨by decide,
    (ExternalChoice_afters_visible [a_STOP, b_STOP] Example.a (by decide)).trans (by decide),
    by decide⟩

/-- C5: for all processes `P` and `Q`, queried into an empty sink,
`initials(P ; Q) = (initials(P) ∖ {✔}) ∪ ({τ} if ✔ ∈ initials(P), else ∅)`;
and `initials((a → b → STOP □ SKIP) ; STOP) = {a, τ}`. -/
theorem SequentialComposition_initials :
    (∀ P Q : Process,
      initials (sequential_composition P Q) ∅ =
        (initials P ∅).erase Event.tick ∪
          (if Event.tick ∈ initials P ∅ then {Event.tau} else ∅)) ∧
    initials ext_then_STOP ∅ = {Example.a, Event.tau} :=
  ⟨initials_seq, by decide⟩

/-- C7: the ✔ of `P` is never observable through `P ; Q`: for all processes
`P` and `Q`, whatever they can perform themselves, ✔ is not in the sink after
`initials` of `P ; Q` (whatever the sink held before), and `afters(P ; Q, ✔)`
adds nothing to its sink, so that queried into an empty sink it is empty. -/
theorem SequentialComposition_tick_hidden (P Q : Process) :
    (∀ out : Event.Set, Event.tick ∉ initials (sequential_composition P Q) out) ∧
    (∀ out : Process.Set, afters (sequential_composition P Q) Event.tick out = out) ∧
    afters (sequential_composition P Q) Event.tick Process.Set.empty = [] :=
  ⟨tick_not_mem_initials_seq P Q, afters_seq_tick P Q, afters_seq_tick P Q Process.Set.empty⟩

/-- C6: for all processes `P`, `Q` and every event `a` that is neither ✔ nor
τ, `afters(P ; Q, a) = { P' ; Q | P' ∈ afters(P, a) }`: every successor is
again a sequential composition with the same right operand `Q`.  The factory
builds the node `SequentialComposition` of its two arguments, so that the
successors are exactly the nodes `SequentialComposition P' Q` for the `P'` in
`afters(P, a)`: each successor is such a node, and each such node is a
successor. -/
theorem SequentialComposition_afters_visible (P Q : Process) (a : Event)
    (htick : a ≠ Event.tick) (htau : a ≠ Event.tau) :
    (afters (sequential_composition P Q) a Process.Set.empty).toFinset =
      (afters P a Process.Set.empty).toFinset.image
        (fun P_prime => sequential_composition P_prime Q) ∧
    sequential_composition P Q = Process.SequentialComposition P Q ∧
    (afters (sequential_composition P Q) a Process.Set.empty).toFinset =
      (afters P a Process.Set.empty).toFinset.image
        (fun P_prime => Process.SequentialComposition P_prime Q) ∧
    (∀ x ∈ afters (sequential_composition P Q) a Process.Set.empty,
      ∃ P_prime ∈ afters P a Process.Set.empty,
        x = Process.SequentialComposition P_prime Q) ∧
    (∀ P_prime ∈ afters P a Process.Set.empty,
      Process.SequentialComposition P_prime Q ∈
        afters (sequential_composition P Q) a Process.Set.empty) := by
  have hmem : ∀ x, x ∈ afters (sequential_composition P Q) a Process.Set.empty ↔
      ∃ P_prime ∈ afters P a Process.Set.empty,
        x = Process.SequentialComposition P_prime Q := by
    intro x
    rw [mem_afters_seq P Q a htick]
    simp only [Process.Set.empty, List.not_mem_nil, false_or, htau, false_and, or_false,
      sequential_composition]
  have himage : (afters (sequential_composition P Q) a Process.Set.empty).toFinset =
      (afters P a Process.Set.empty).toFinset.image
        (fun P_prime => Process.SequentialComposition P_prime Q) := by
    ext x
    simp only [List.mem_toFinset, Finset.mem_image, hmem x]
    constructor
    · rintro ⟨p, hp, rfl⟩
      exact ⟨p, hp, rfl⟩
    · rintro ⟨p, hp, rfl⟩
      exact ⟨p, hp, rfl⟩
  exact ⟨himage, rfl, himage, fun x hx => (hmem x).mp hx,
    fun p hp => (hmem _).mpr ⟨p, hp, rfl⟩⟩

/-- The test `a → SKIP ; STOP` (test-operators.cc:331-340):
`afters(a → SKIP ; STOP, a) = {SKIP ; STOP}`, the node `SequentialComposition`
of `SKIP` and `STOP`. -/
theorem SequentialComposition_afters_visible_witness :
    Example.a ≠ Event.tick ∧ Example.a ≠ Event.tau ∧
    (afters a_SKIP_then_STOP Example.a Process.Set.empty).toFinset = {SKIP_then_STOP} ∧
    (afters (sequential_composition (Process.Prefix Example.a Process.Skip) Process.Stop)
      Example.a Process.Set.empty).toFinset =
        {Process.SequentialComposition Process.Skip Process.Stop} ∧
    afters (sequential_composition (Process.Prefix Example.a Process.Skip) Process.Stop)
      Example.a Process.Set.empty =
        [Process.SequentialComposition Process.Skip Process.Stop] :=
  ⟨by decide, by decide,
    (SequentialComposition_afters_visible a_SKIP stop Example.a (by decide)
      (by decide)).1.trans (by decide),
    (SequentialComposition_afters_visible (Process.Prefix Example.a Process.Skip) Process.Stop
      Example.a (by decide) (by decide)).2.2.1.trans (by decide),
    by decide⟩

/-- C4: for all processes `P` and `Q`,
`afters(P ; Q, τ) = { P' ; Q | P' ∈ afters(P, τ) } ∪ ({Q} if ✔ ∈ initials(P), else ∅)`;
`afters(SKIP ; STOP, τ) = {STOP}`; and
`afters((a → b → STOP ⊓ SKIP) ; STOP, τ) = { a → b → STOP ; STOP, SKIP ; STOP }`. -/
theorem SequentialComposition_afters_tau :
    (∀ P Q : Process,
      (afters (sequential_composition P Q) Event.tau Process.Set.empty).toFinset =
        (afters P Event.tau Process.Set.empty).toFinset.image
            (fun P_prime => sequential_composition P_prime Q) ∪
          (if Event.tick ∈ initials P ∅ then {Q} else ∅)) ∧
    (afters SKIP_then_STOP Event.tau Process.Set.empty).toFinset = {stop} ∧
    (afters int_then_STOP Event.tau Process.Set.empty).toFinset =
      {sequential_composition a_b_STOP stop, sequential_composition skip stop} := by
  refine ⟨?_, by decide, by decide⟩
  intro P Q
  have hsound := afters_ne_nil_iff P Event.tick (Or.inl tau_ne_tick.symm)
  ext x
  simp only [List.mem_toFinset, Finset.mem_union, Finset.mem_image,
    mem_afters_seq P Q Event.tau tau_ne_tick]
  simp only [Process.Set.empty, List.not_mem_nil, false_or, true_and]
  simp only [Process.Set.empty] at hsound
  rw [hsound]
  constructor
  · rintro (⟨p, hp, rfl⟩ | ⟨hk, rfl⟩)
    · exact Or.inl ⟨p, hp, rfl⟩
    · right
      simp [hk]
  · rintro (⟨p, hp, rfl⟩ | h)
    · exact Or.inl ⟨p, hp, rfl⟩
    · right
      by_cases hk : Event.tick ∈ initials P ∅
      · simp [hk] at h
        exact ⟨hk, h⟩
      · simp [hk] at h

/-- C8: soundness and completeness of `initials`: for every process term `P`
built from STOP, SKIP, prefix, external choice and sequential composition, and
for every event `a`, `afters(P, a)` is non-empty if and only if
`a ∈ initials(P)`. -/
theorem afters_nonempty_iff_mem_initials (P : Process) (hP : core P = true) (a : Event) :
    afters P a Process.Set.empty ≠ [] ↔ a ∈ initials P ∅ :=
  afters_ne_nil_iff P a (Or.inr hP)

/-- The test `(a → b → STOP □ SKIP) ; STOP` (test-operators.cc:342-351) on τ:
the term is built from the core operators, τ is an initial and `STOP` is the
successor. -/
theorem afters_nonempty_iff_mem_initials_witness :
    core ext_then_STOP = true ∧
    (afters ext_then_STOP Event.tau Process.Set.empty ≠ [] ↔
      Event.tau ∈ initials ext_then_STOP ∅) ∧
    afters ext_then_STOP Event.tau Process.Set.empty = [stop] ∧
    Event.tau ∈ initials ext_then_STOP ∅ :=
  ⟨by decide, afters_nonempty_iff_mem_initials ext_then_STOP (by decide) Event.tau,
    by decide, by decide⟩

/-- C1: the τ branch of `ExternalChoice::afters` at
`□ {a → STOP ⊓ b → STOP, a → STOP, b → STOP}`.  The set of the claim is
`{a → STOP □ b → STOP}`; the code reports `□ {b → STOP}` as well, because
erasing the successor `a → STOP` from the working set removes an operand, and
it does so for each of the six orders in which the operands can be visited;
with the two successors visited in the other order the extra process is
`□ {a → STOP}`.  At `(a → STOP) □ (b → STOP ⊓ c → STOP)`, where no successor is
an operand, the code reports the two processes of the claim. -/
theorem ExternalChoice_afters_tau_overlapping :
    afters (external_choice overlapping) Event.tau Process.Set.empty =
      [external_choice [b_STOP], external_choice [a_STOP, b_STOP]] ∧
    ExternalChoice.aftersTauSpec overlapping = {external_choice [a_STOP, b_STOP]} ∧
    (afters (external_choice overlapping) Event.tau Process.Set.empty).toFinset ≠
      ExternalChoice.aftersTauSpec overlapping ∧
    (overlapping_orders.all fun order =>
      decide (order.Perm overlapping) &&
      decide ((ExternalChoice.aftersTau order overlapping Process.Set.empty).2.toFinset ≠
        ExternalChoice.aftersTauSpec overlapping)) = true ∧
    overlapping_orders.Nodup ∧ overlapping_orders.length = 6 ∧
    (ExternalChoice.aftersInner [b_STOP, a_STOP]
        (Process.Set.erase overlapping (internal_choice₂ a_STOP b_STOP))
        Process.Set.empty).2 =
      [external_choice [a_STOP], external_choice [a_STOP, b_STOP]] ∧
    afters choice_a_bc Event.tau Process.Set.empty = [choice_a_b, choice_a_c] ∧
    ExternalChoice.aftersTauSpec [a_STOP, internal_choice₂ b_STOP c_STOP] =
      {choice_a_b, choice_a_c} := by
  refine ⟨by decide, by decide, by decide, by decide, by decide, by decide, by decide,
    by decide, by decide⟩

/-- C11: for every seed set `S`, the loop of `Process::Set::tau_close` returns
(with any number of turns above `sizeList S`), and the set it returns is the
smallest superset of `S` closed under one-step τ-successors: it contains `S`,
it contains `afters(P, τ)` for each of its members `P`, and it is contained in
every set with those two properties; it is exactly the set of processes
reachable from `S` by zero or more τ steps. -/
theorem tau_close_smallest_closed_superset (S : Process.Set) :
    (∀ fuel, Process.sizeList S < fuel →
      Process.Set.tau_close_loop fuel S = some (Process.Set.tau_close S)) ∧
    (∀ P ∈ S, P ∈ Process.Set.tau_close S) ∧
    (∀ P ∈ Process.Set.tau_close S, ∀ Q ∈ afters P Event.tau Process.Set.empty,
      Q ∈ Process.Set.tau_close S) ∧
    (∀ T : Process → Prop, (∀ P ∈ S, T P) → TauClosed T →
      ∀ P ∈ Process.Set.tau_close S, T P) ∧
    (∀ P, P ∈ Process.Set.tau_close S ↔ TauReachable S P) :=
  ⟨Process.Set.tau_close_loop_eq S, (Process.Set.tau_close_spec S).1,
    (Process.Set.tau_close_spec S).2.1, (Process.Set.tau_close_spec S).2.2,
    Process.Set.mem_tau_close_iff S⟩

/-- The closure of `{(a → STOP) □ (b → STOP ⊓ c → STOP)}`: the loop returns in
its second turn, with the seed and its two τ-successors. -/
theorem tau_close_smallest_closed_superset_witness :
    Process.sizeList [choice_a_bc] < 9 ∧
    Process.Set.tau_close_loop 9 [choice_a_bc] = some (Process.Set.tau_close [choice_a_bc]) ∧
    Process.Set.tau_close [choice_a_bc] = [choice_a_b, choice_a_c, choice_a_bc] ∧
    Process.Set.tau_close_loop 2 [choice_a_bc] = some [choice_a_b, choice_a_c, choice_a_bc] ∧
    Process.Set.tau_close_loop 1 [choice_a_bc] = none :=
  ⟨by decide, (tau_close_smallest_closed_superset [choice_a_bc]).1 9 (by decide),
    by decide, by decide, by decide⟩

/-- C12: for every seed set `S` of process terms the loop of
`Process::Set::tau_close` terminates: it returns within `sizeList S + 1`
turns.  The τ-reachable processes are the elements of one finite list, and a
turn of the loop on a set of τ-reachable processes leaves a set of τ-reachable
processes and either returns it, when its size is unchanged, or has strictly
more elements to go on with. -/
theorem tau_close_loop_terminates (S : Process.Set) :
    (∀ fuel, Process.sizeList S < fuel →
      (Process.Set.tau_close_loop fuel S).isSome = true) ∧
    (∀ P, TauReachable S P → P ∈ Process.Set.tau_close S) ∧
    (∀ s : Process.Set, (∀ P ∈ s, TauReachable S P) →
      (∀ P ∈ Process.Set.tau_close_step s, TauReachable S P) ∧
      ((Process.Set.tau_close_step s).length = s.length →
        ∀ fuel, Process.Set.tau_close_loop (fuel + 1) s =
          some (Process.Set.tau_close_step s)) ∧
      ((Process.Set.tau_close_step s).length ≠ s.length →
        s.length < (Process.Set.tau_close_step s).length ∧
        ∀ fuel, Process.Set.tau_close_loop (fuel + 1) s =
          Process.Set.tau_close_loop fuel (Process.Set.tau_close_step s))) := by
  refine ⟨?_, ?_, ?_⟩
  · intro fuel hfuel
    rw [Process.Set.tau_close_loop_eq S fuel hfuel]
    rfl
  · intro P hP
    exact (Process.Set.mem_tau_close_iff S P).mpr hP
  · intro s hs
    refine ⟨?_, ?_, ?_⟩
    · intro P hP
      rcases (Process.Set.mem_tau_close_step s P).mp hP with h | ⟨p, hp, hPp⟩
      · exact hs P h
      · exact TauReachable.step p P (hs p hp) hPp
    · intro hlen fuel
      simp [Process.Set.tau_close_loop, hlen]
    · intro hlen
      have hle : s.length ≤ (Process.Set.tau_close_step s).length :=
        Process.Set.length_le_insertAll _ s
      refine ⟨by omega, ?_⟩
      intro fuel
      simp only [Process.Set.tau_close_loop]
      rw [if_neg (fun h => hlen h.symm)]

/-- On `{(a → STOP) □ (b → STOP ⊓ c → STOP)}` the first turn grows the set from
one element to three and the second turn returns. -/
theorem tau_close_loop_terminates_witness :
    Process.sizeList [choice_a_bc] < 9 ∧
    (Process.Set.tau_close_loop 9 [choice_a_bc]).isSome = true ∧
    (Process.Set.tau_close_step [choice_a_bc]).length = 3 ∧
    (Process.Set.tau_close_step (Process.Set.tau_close_step [choice_a_bc])).length = 3 :=
  ⟨by decide, (tau_close_loop_terminates [choice_a_bc]).1 9 (by decide), by decide, by decide⟩

/-- C13: τ-closure is idempotent: for every process set `S`,
`tau_close(tau_close(S)) = tau_close(S)`; on the closed set the loop returns
in its first turn, with the set unchanged. -/
theorem tau_close_twice (S : Process.Set) :
    Process.Set.tau_close (Process.Set.tau_close S) = Process.Set.tau_close S ∧
    ∀ fuel, Process.Set.tau_close_loop (fuel + 1) (Process.Set.tau_close S) =
      some (Process.Set.tau_close S) :=
  ⟨Process.Set.tau_close_idempotent S,
    fun fuel => Process.Set.tau_close_loop_of_closed fuel _ (Process.Set.tau_close_spec S).2.1⟩

/-- C14: across any sequence of `Event::find_or_create_event` calls on one
registry, started empty, the same name always returns the same index, however
many other names are interned in between, and two distinct names never return
the same index: for any two calls of the sequence, the indices returned are
equal exactly when the names passed are equal. -/
theorem find_or_create_event_stable_injective (calls : List String)
    (p q : String × Event.Index)
    (hp : p ∈ calls.zip (Event.intern_all none calls).1)
    (hq : q ∈ calls.zip (Event.intern_all none calls).1) :
    p.2 = q.2 ↔ p.1 = q.1 := by
  rw [(Event.intern_all_fresh calls).1] at hp hq
  obtain ⟨hp1, hp2⟩ := Event.mem_zip_map _ calls p hp
  obtain ⟨hq1, hq2⟩ := Event.mem_zip_map _ calls q hq
  have hmp : p.1 ∈ Event.first_seen [] calls := (Event.mem_first_seen calls [] p.1).mpr (Or.inr hp1)
  have hmq : q.1 ∈ Event.first_seen [] calls := (Event.mem_first_seen calls [] q.1).mpr (Or.inr hq1)
  rw [hp2, hq2]
  constructor
  · intro h
    exact (List.indexOf_inj hmp hmq).mp (Nat.succ_injective h)
  · intro h
    rw [h]

/-- The calls `τ`, `✔`, `a`, `τ` return `1, 2, 3, 1`: the two calls with `τ`
agree, and `τ` and `a` get different indices. -/
theorem find_or_create_event_stable_injective_witness :
    (("τ", 1) ∈ ["τ", "✔", "a", "τ"].zip (Event.intern_all none ["τ", "✔", "a", "τ"]).1) ∧
    (("a", 3) ∈ ["τ", "✔", "a", "τ"].zip (Event.intern_all none ["τ", "✔", "a", "τ"]).1) ∧
    ((1 : Nat) = 3 ↔ "τ" = "a") ∧
    (Event.intern_all none ["τ", "✔", "a", "τ"]).1 = [1, 2, 3, 1] :=
  ⟨by decide, by decide,
    find_or_create_event_stable_injective ["τ", "✔", "a", "τ"] ("τ", 1) ("a", 3)
      (by decide) (by decide),
    by decide⟩

/-- C15: event indices are dense from 1 in order of first interning.  For a
sequence of calls on an empty registry, with `first_seen` the distinct names in
order of first interning: every call returns one more than the position of its
name among them, so the `k`-th distinct name receives index `k` (positions
count from 0 in the statement); every index returned lies between 1 and the
number of distinct names, so 0 is never returned; interning a known name again
returns its index and leaves the registry, `next_index` included, as it was;
and a name not seen before receives the next index, one more than the number
of distinct names. -/
theorem find_or_create_event_dense (calls : List String) :
    (Event.intern_all none calls).1 =
      calls.map (fun n => (Event.first_seen [] calls).indexOf n + 1) ∧
    (Event.first_seen [] calls).Nodup ∧
    (∀ n, n ∈ Event.first_seen [] calls ↔ n ∈ calls) ∧
    (∀ (k : Nat) (n : String), (Event.first_seen [] calls)[k]? = some n →
      (Event.first_seen [] calls).indexOf n + 1 = k + 1) ∧
    (∀ r ∈ (Event.intern_all none calls).1, 1 ≤ r ∧ r ≤ (Event.first_seen [] calls).length) ∧
    (∀ n ∈ calls,
      Event.find_or_create_event (Event.intern_all none calls).2 n =
        ((Event.first_seen [] calls).indexOf n + 1, (Event.intern_all none calls).2)) ∧
    (∀ n, n ∉ calls →
      (Event.find_or_create_event (Event.intern_all none calls).2 n).1 =
        (Event.first_seen [] calls).length + 1) := by
  obtain ⟨h1, h2⟩ := Event.intern_all_fresh calls
  have hnd := Event.repO_nodup _ _ h2
  have hmem : ∀ n, n ∈ Event.first_seen [] calls ↔ n ∈ calls := by
    intro n
    rw [Event.mem_first_seen]
    simp
  refine ⟨h1, hnd, hmem, ?_, ?_, ?_, ?_⟩
  · intro k n hk
    obtain ⟨hlt, hget⟩ := List.getElem?_eq_some_iff.mp hk
    rw [← hget, List.indexOf_getElem hnd k hlt]
  · intro r hr
    rw [h1] at hr
    obtain ⟨n, hn, rfl⟩ := List.mem_map.mp hr
    have hlt := List.indexOf_lt_length.mpr ((hmem n).mpr hn)
    exact ⟨Nat.succ_le_succ (Nat.zero_le _), hlt⟩
  · intro n hn
    cases hT : (Event.intern_all none calls).2 with
    | none =>
      rw [hT] at h2
      have hs : Event.first_seen [] calls = [] := h2
      have := (hmem n).mpr hn
      rw [hs] at this
      simp at this
    | some t =>
      rw [hT] at h2
      exact Event.find_or_create_known t _ h2 n ((hmem n).mpr hn)
  · intro n hn
    have hn2 : n ∉ Event.first_seen [] calls := fun h => hn ((hmem n).mp h)
    cases hT : (Event.intern_all none calls).2 with
    | none =>
      rw [hT] at h2
      have hs : Event.first_seen [] calls = [] := h2
      rw [hs]
      rfl
    | some t =>
      rw [hT] at h2
      obtain ⟨t2, hstep, _⟩ := Event.find_or_create_fresh t _ h2 n hn2
      rw [hstep]

/-- The calls `τ`, `✔`, `a`, `τ`, `b`, `a` return `1, 2, 3, 1, 4, 3`, and
interning `a` once more returns `3` and leaves the registry as it was. -/
theorem find_or_create_event_dense_witness :
    (Event.intern_all none ["τ", "✔", "a", "τ", "b", "a"]).1 = [1, 2, 3, 1, 4, 3] ∧
    "a" ∈ ["τ", "✔", "a", "τ", "b", "a"] ∧
    (Event.find_or_create_event
      (Event.intern_all none ["τ", "✔", "a", "τ", "b", "a"]).2 "a").1 = 3 ∧
    (Event.find_or_create_event
      (Event.intern_all none ["τ", "✔", "a", "τ", "b", "a"]).2 "a").2 =
      (Event.intern_all none ["τ", "✔", "a", "τ", "b", "a"]).2 :=
  ⟨(find_or_create_event_dense ["τ", "✔", "a", "τ", "b", "a"]).1.trans (by decide),
    by decide,
    (congrArg Prod.fst ((find_or_create_event_dense
      ["τ", "✔", "a", "τ", "b", "a"]).2.2.2.2.2.1 "a" (by decide))).trans (by decide),
    congrArg Prod.snd ((find_or_create_event_dense
      ["τ", "✔", "a", "τ", "b", "a"]).2.2.2.2.2.1 "a" (by decide))⟩

/-- C16: reverse lookup round-trips.  For every name `n`, after any earlier
calls, the name of the event returned by `find_or_create_event(n)` is `n`, and
it still is after any further interning calls; and after every sequence of
calls the reverse map `names` holds `m` under `i` exactly when the forward map
`indices` holds `i` under `m` (before the first call there is no table). -/
theorem event_name_roundtrip (calls1 calls2 : List String) (n : String) :
    Event.name (Event.intern_all (Event.find_or_create_event (Event.intern_all none calls1).2 n).2 calls2).2
        ⟨(Event.find_or_create_event (Event.intern_all none calls1).2 n).1⟩ = some n ∧
    (match (Event.intern_all none calls1).2 with
      | none => calls1 = []
      | some t => ∀ (i : Nat) (m : String), t.names i = some m ↔ t.indices m = some i) := by
  obtain ⟨_, h2⟩ := Event.intern_all_fresh calls1
  constructor
  · obtain ⟨h3, h4⟩ := Event.intern_all_repO [n] _ _ h2
    simp only [Event.intern_all, List.map_cons, List.map_nil, List.cons.injEq, and_true] at h3 h4
    obtain ⟨_, h6⟩ := Event.intern_all_repO calls2 _ _ h4
    have hn1 : n ∈ Event.first_seen (Event.first_seen [] calls1) [n] := by
      rw [Event.mem_first_seen]
      simp
    have hn2 : n ∈ Event.first_seen (Event.first_seen (Event.first_seen [] calls1) [n]) calls2 := by
      rw [Event.mem_first_seen]
      exact Or.inl hn1
    have := Event.name_after_calls _ _ h6 n hn2
    rw [Event.indexOf_first_seen calls2 _ n hn1] at this
    rw [h3]
    exact this
  · cases hT : (Event.intern_all none calls1).2 with
    | none =>
      rw [hT] at h2
      have hs : Event.first_seen [] calls1 = [] := h2
      cases calls1 with
      | nil => rfl
      | cons a l =>
        have : a ∈ Event.first_seen [] (a :: l) := by
          rw [Event.mem_first_seen]
          simp
        rw [hs] at this
        simp at this
    | some t =>
      rw [hT] at h2
      exact fun i m => Event.rep_inverse t _ h2 i m

/-- After `τ` and `✔`, the event returned for `a` has index 3, and its name is
still `a` after `b` was interned. -/
theorem event_name_roundtrip_witness :
    (Event.find_or_create_event (Event.intern_all none ["τ", "✔"]).2 "a").1 = 3 ∧
    Event.name
      (Event.intern_all (Event.find_or_create_event (Event.intern_all none ["τ", "✔"]).2 "a").2
        ["b"]).2
      ⟨(Event.find_or_create_event (Event.intern_all none ["τ", "✔"]).2 "a").1⟩ = some "a" :=
  ⟨by decide, (event_name_roundtrip ["τ", "✔"] ["b"] "a").1⟩

/-- C17: hash/equality compatibility.  With the hasher any function of its
scope and of the sequence of values added: for all nodes `P` and `Q` (of the
classes Prefix, Skip, SequentialComposition and ExternalChoice, and of the two
others as well), whose operand sets hold no node twice, if `P == Q` under
`operator==` then `hash(P) = hash(Q)`; and two nodes of different classes
never compare equal. -/
theorem hash_equals_compatible (h : Hasher) (P Q : Process) :
    (Process.wf P = true → Process.equals P Q = true → Process.hash h P = Process.hash h Q) ∧
    (Process.kind P ≠ Process.kind Q → Process.equals P Q = false) := by
  refine ⟨hash_eq_of_equals h P Q, ?_⟩
  intro hk
  cases he : Process.equals P Q with
  | false => rfl
  | true => exact absurd (kind_eq_of_equals P Q he) hk

/-- The choice `(a → STOP) □ (b → STOP)` with its operand set stored in the
two possible orders: the nodes compare equal and hash equal; `SKIP` and `STOP`
are of different classes and do not compare equal. -/
theorem hash_equals_compatible_witness :
    Process.wf (external_choice [a_STOP, b_STOP]) = true ∧
    Process.equals (external_choice [a_STOP, b_STOP]) (external_choice [b_STOP, a_STOP]) = true ∧
    Process.hash salted_hasher (external_choice [a_STOP, b_STOP]) =
      Process.hash salted_hasher (external_choice [b_STOP, a_STOP]) ∧
    Process.kind skip ≠ Process.kind stop ∧
    Process.equals skip stop = false :=
  ⟨by decide, by decide,
    (hash_equals_compatible salted_hasher (external_choice [a_STOP, b_STOP])
      (external_choice [b_STOP, a_STOP])).1 (by decide) (by decide),
    by decide,
    (hash_equals_compatible salted_hasher skip stop).2 (by decide)⟩

/-- C18: the binary external-choice factory is sugar for the set form:
`external_choice(p, q)` is the node that the set form returns for the set
`{p, q}`, whichever way that set was built; hence `external_choice(p, q)` is
`external_choice(q, p)`, and `external_choice(p, p)` is the singleton choice
`external_choice({p})`, which is a node different from `p`
(`STOP □ STOP` is `□ {STOP}`). -/
theorem external_choice_binary_is_set_form (p q : Process) :
    external_choice₂ p q =
      external_choice (Process.Set.insert (Process.Set.insert Process.Set.empty p) q) ∧
    (∀ s : Process.Set, Process.Set.Canonical s → (∀ x, x ∈ s ↔ x = p ∨ x = q) →
      external_choice₂ p q = external_choice s) ∧
    external_choice₂ p q = external_choice₂ q p ∧
    external_choice₂ p p = external_choice [p] ∧
    external_choice₂ p p ≠ p ∧
    external_choice₂ stop stop = external_choice [stop] := by
  have hcan : ∀ a b : Process, Process.Set.Canonical
      (Process.Set.insert (Process.Set.insert Process.Set.empty a) b) := fun a b =>
    Process.Set.canonical_insert _ _
      (Process.Set.canonical_insert _ _ Process.Set.canonical_empty)
  have hmem : ∀ a b x : Process,
      x ∈ Process.Set.insert (Process.Set.insert Process.Set.empty a) b ↔ x = a ∨ x = b := by
    intro a b x
    simp only [Process.Set.mem_insert, Process.Set.empty, List.not_mem_nil, or_false]
    exact or_comm
  have hset : ∀ s : Process.Set, Process.Set.Canonical s → (∀ x, x ∈ s ↔ x = p ∨ x = q) →
      external_choice₂ p q = external_choice s := by
    intro s hs h
    unfold external_choice₂
    rw [Process.Set.canonical_ext _ s (hcan p q) hs (fun x => (hmem p q x).trans (h x).symm)]
  have hpp : external_choice₂ p p = external_choice [p] := by
    simp [external_choice₂, Process.Set.insert, Process.Set.empty]
  refine ⟨rfl, hset, ?_, hpp, ?_, ?_⟩
  · exact hset _ (hcan q p) (fun x => (hmem q p x).trans or_comm)
  · rw [hpp]
    intro h
    have hc := congrArg Process.code h
    simp only [external_choice, Process.code, Process.codeList] at hc
    have h1 := Nat.right_le_pair 4 (Nat.pair p.code 0 + 1)
    have h2 := Nat.left_le_pair p.code 0
    omega
  · simp [external_choice₂, Process.Set.insert, Process.Set.empty]

/-- The set `{a → STOP, b → STOP}` is the list `[a → STOP, b → STOP]`, and
`external_choice(b → STOP, a → STOP)` is the node of that set. -/
theorem external_choice_binary_is_set_form_witness :
    Process.Set.Canonical [a_STOP, b_STOP] ∧
    external_choice₂ b_STOP a_STOP = external_choice [a_STOP, b_STOP] ∧
    external_choice₂ a_STOP b_STOP = external_choice [a_STOP, b_STOP] :=
  ⟨⟨by decide, by decide⟩,
    (external_choice_binary_is_set_form b_STOP a_STOP).2.1 [a_STOP, b_STOP]
      ⟨by decide, by decide⟩ (fun x => by simp [or_comm]),
    by decide⟩

/-- C19: the semantics of a singleton external choice degenerate to its
operand: for every process `P`, `initials(□ {P}) = initials(P)`;
`afters(□ {P}, a) = afters(P, a)` for every event `a ≠ τ`; and
`afters(□ {P}, τ) = { □ {P'} | P' ∈ afters(P, τ) }`.  `□ {STOP}` has no
initials and no afters.  The wrapper is retained: `□ {P}` is the node
`ExternalChoice` of the set `{P}`, another process than `P`, and the
τ-successors are the nodes `ExternalChoice` of the sets `{P'}`. -/
theorem ExternalChoice_singleton (P : Process) :
    initials (external_choice [P]) ∅ = initials P ∅ ∧
    (∀ a, a ≠ Event.tau →
      (afters (external_choice [P]) a Process.Set.empty).toFinset =
        (afters P a Process.Set.empty).toFinset) ∧
    (afters (external_choice [P]) Event.tau Process.Set.empty).toFinset =
      (afters P Event.tau Process.Set.empty).toFinset.image
        (fun P_prime => external_choice [P_prime]) ∧
    initials (external_choice [stop]) ∅ = ∅ ∧
    (∀ a, afters (external_choice [stop]) a Process.Set.empty = []) ∧
    external_choice [P] = Process.ExternalChoice [P] ∧
    external_choice [P] ≠ P ∧
    (afters (external_choice [P]) Event.tau Process.Set.empty).toFinset =
      (afters P Event.tau Process.Set.empty).toFinset.image
        (fun P_prime => Process.ExternalChoice [P_prime]) := by
  have hne : external_choice [P] ≠ P := by
    intro h
    have hc := congrArg Process.code h
    simp only [external_choice, Process.code, Process.codeList] at hc
    have h1 := Nat.right_le_pair 4 (Nat.pair P.code 0 + 1)
    have h2 := Nat.left_le_pair P.code 0
    omega
  have hinit : initials (external_choice [P]) ∅ = initials P ∅ := by
    simp [external_choice, initials, ExternalChoice.initials]
  have hvisible : ∀ a, a ≠ Event.tau →
      (afters (external_choice [P]) a Process.Set.empty).toFinset =
        (afters P a Process.Set.empty).toFinset := by
    intro a ha
    ext x
    simp [external_choice, afters, ha, mem_aftersOther, Process.Set.empty]
  have htau : (afters (external_choice [P]) Event.tau Process.Set.empty).toFinset =
      (afters P Event.tau Process.Set.empty).toFinset.image
        (fun P_prime => external_choice [P_prime]) := by
    ext x
    have h1 : Process.Set.erase [P] P = [] := by simp [Process.Set.erase]
    simp only [external_choice, afters, if_true, ExternalChoice.aftersTau, h1,
      List.mem_toFinset, Finset.mem_image]
    rw [(aftersInner_nil _ _ x).2]
    simp only [Process.Set.empty, List.not_mem_nil, false_or]
    constructor
    · rintro ⟨p, hp, rfl⟩
      exact ⟨p, hp, rfl⟩
    · rintro ⟨p, hp, rfl⟩
      exact ⟨p, hp, rfl⟩
  have hstop : initials (external_choice [stop]) ∅ = ∅ := by
    simp [external_choice, initials, ExternalChoice.initials, stop, Stop.initials]
  have hstop_afters : ∀ a, afters (external_choice [stop]) a Process.Set.empty = [] := by
    intro a
    by_cases ha : a = Event.tau
    · subst ha
      simp [external_choice, afters, ExternalChoice.aftersTau, stop, Stop.afters,
        Process.Set.empty, ExternalChoice.aftersInner]
    · simp [external_choice, afters, ha, ExternalChoice.aftersOther, stop, Stop.afters,
        Process.Set.empty, Process.Set.insertAll]
  exact ⟨hinit, hvisible, htau, hstop, hstop_afters, rfl, hne, htau⟩

/-- The singleton choice `□ {b → STOP ⊓ c → STOP}`: no successor on `a`, and on
τ the two choices `□ {b → STOP}` and `□ {c → STOP}`. -/
theorem ExternalChoice_singleton_witness :
    Example.a ≠ Event.tau ∧
    (afters (external_choice [internal_choice₂ b_STOP c_STOP]) Example.a
      Process.Set.empty).toFinset = ∅ ∧
    (afters (external_choice [internal_choice₂ b_STOP c_STOP]) Event.tau
      Process.Set.empty).toFinset = {external_choice [b_STOP], external_choice [c_STOP]} ∧
    (afters (external_choice [internal_choice₂ b_STOP c_STOP]) Event.tau
      Process.Set.empty).toFinset =
        {Process.ExternalChoice [b_STOP], Process.ExternalChoice [c_STOP]} :=
  ⟨by decide,
    ((ExternalChoice_singleton (internal_choice₂ b_STOP c_STOP)).2.1 Example.a
      (by decide)).trans (by decide),
    ((ExternalChoice_singleton (internal_choice₂ b_STOP c_STOP)).2.2.1).trans (by decide),
    ((ExternalChoice_singleton (internal_choice₂ b_STOP c_STOP)).2.2.2.2.2.2.2).trans
      (by decide)⟩

/-- C20: rendering a process set or bag emits `{`, then the renderings of its
elements separated by `, ` in ascending order of process index, then `}`; and
when different elements have different indices, the output is the same
whatever order the container stores or iterates its elements in. -/
theorem render_sorted_by_index (index : Process → Nat) (print : Process → String)
    (ps : List Process) (out : String) :
    Process.Set.render index print ps out =
      out ++ "\x7b" ++ ", ".intercalate ((sort_by_index index ps).map print) ++ "\x7d" ∧
    Process.Bag.render index print ps out =
      out ++ "\x7b" ++ ", ".intercalate ((sort_by_index index ps).map print) ++ "\x7d" ∧
    (sort_by_index index ps).Sorted (fun p1 p2 => index p1 ≤ index p2) ∧
    (sort_by_index index ps).Perm ps ∧
    ∀ qs : List Process, qs.Perm ps →
      (∀ x ∈ ps, ∀ y ∈ ps, index x = index y → x = y) →
      Process.Set.render index print qs out = Process.Set.render index print ps out ∧
      Process.Bag.render index print qs out = Process.Bag.render index print ps out := by
  haveI : IsTotal Process (fun p1 p2 => index p1 ≤ index p2) :=
    ⟨fun x y => Nat.le_total (index x) (index y)⟩
  haveI : IsTrans Process (fun p1 p2 => index p1 ≤ index p2) :=
    ⟨fun _ _ _ h1 h2 => Nat.le_trans h1 h2⟩
  refine ⟨?_, ?_, List.sorted_insertionSort _ ps, List.perm_insertionSort _ ps, ?_⟩
  · simp only [Process.Set.render, render_loop_true]
  · simp only [Process.Bag.render, render_loop_true]
  · intro qs hperm hinj
    unfold Process.Set.render Process.Bag.render
    rw [sort_by_index_perm index qs ps hperm hinj]
    exact ⟨rfl, rfl⟩

/-- With `a → STOP` created before `b → STOP`, the set `{a → STOP, b → STOP}`
renders as `{a → STOP, b → STOP}` whether it is iterated as `b → STOP`,
`a → STOP` or the other way round. -/
theorem render_sorted_by_index_witness :
    [b_STOP, a_STOP].Perm [a_STOP, b_STOP] ∧
    (∀ x ∈ [a_STOP, b_STOP], ∀ y ∈ [a_STOP, b_STOP],
      creation_index x = creation_index y → x = y) ∧
    Process.Set.render creation_index text [b_STOP, a_STOP] "" =
      Process.Set.render creation_index text [a_STOP, b_STOP] "" ∧
    Process.Set.render creation_index text [b_STOP, a_STOP] "" =
      "\x7ba → STOP, b → STOP\x7d" :=
  ⟨by decide, by decide,
    ((render_sorted_by_index creation_index text [a_STOP, b_STOP] "").2.2.2.2
      [b_STOP, a_STOP] (by decide) (by decide)).1,
    by decide⟩

/-- C21: rendering an event set emits its events sorted by event index, as
`{` + names joined by `, ` + `}`, so that two equal event sets render to the
same text in whatever order their events were inserted.  For an event set
`events` and any list `listed` of its events without repetition: the loop
visits the events of the set, each once, in strictly ascending index; the text
written is the names of the visited events joined by `, ` between braces,
which is the text of the spec for `listed`; and the set built by inserting
the events in any order, with any repetitions, renders to the same text. -/
theorem Event_Set_render_sorted_by_index (table_ : Option Event.Table)
    (events : Event.Set) (listed : List Event) (hnodup : listed.Nodup)
    (hlisted : ∀ e, e ∈ listed ↔ e ∈ events) (out : String) :
    (Event.Set.iterate events).Sorted (fun e1 e2 => e1.index < e2.index) ∧
    (∀ e, e ∈ Event.Set.iterate events ↔ e ∈ events) ∧
    (Event.Set.iterate events).Perm listed ∧
    Event.Set.render table_ events out =
      out ++ "\x7b" ++
        ", ".intercalate
          ((Event.Set.iterate events).map
            (fun event => (Event.name table_ event).getD "")) ++ "\x7d" ∧
    Event.Set.render table_ events out = Event.Set.render_spec table_ listed out ∧
    (∀ inserted : List Event, (∀ e, e ∈ inserted ↔ e ∈ events) →
      Event.Set.render table_ (inserted.foldl (fun sink event => insert event sink) ∅) out =
        Event.Set.render_spec table_ listed out) := by
  have hset : listed.toFinset = events := by
    ext e
    rw [List.mem_toFinset, hlisted e]
  have hiter : Event.Set.iterate events = Event.sort listed :=
    Event.Set.iterate_of_list events listed hnodup hset
  have hrender : Event.Set.render table_ events out =
      Event.Set.render_spec table_ listed out := by
    rw [Event.Set.render_eq, hiter]
    rfl
  refine ⟨?_, ?_, ?_, Event.Set.render_eq table_ events out, hrender, ?_⟩
  · rw [hiter]
    exact Event.sort_strict listed hnodup
  · intro e
    rw [hiter, Event.mem_sort, hlisted e]
  · rw [hiter]
    exact List.perm_insertionSort _ listed
  · intro inserted hinserted
    have hsame : inserted.foldl (fun sink event => insert event sink) ∅ = events := by
      rw [Event.Set.foldl_insert]
      ext e
      simp only [Finset.empty_union, List.mem_toFinset, hinserted e]
    rw [hsame, hrender]

/-- The set `{a, b}` of the registry `τ`, `✔`, `a`, `b`, listed as `b`, `a`:
it renders to `{a, b}`, also when `b` was inserted before `a` and when `a` was
inserted twice. -/
theorem Event_Set_render_sorted_by_index_witness :
    [Example.b, Example.a].Nodup ∧
    (∀ e, e ∈ [Example.b, Example.a] ↔ e ∈ ({Example.a, Example.b} : Event.Set)) ∧
    Event.Set.iterate {Example.a, Example.b} = [Example.a, Example.b] ∧
    Event.Set.render registry {Example.a, Example.b} "" = "\x7ba, b\x7d" ∧
    Event.Set.render registry (insert Example.a (insert Example.b ∅)) "" = "\x7ba, b\x7d" ∧
    Event.Set.render registry (insert Example.b (insert Example.a ∅)) "" = "\x7ba, b\x7d" ∧
    Event.Set.render registry
      ([Example.a, Example.b, Example.a].foldl (fun sink event => insert event sink) ∅) "" =
        "\x7ba, b\x7d" :=
  ⟨by decide,
    fun e => by
      simp only [List.mem_cons, List.mem_singleton, List.not_mem_nil, or_false,
        Finset.mem_insert, Finset.mem_singleton]
      tauto,
    by decide,
    ((Event_Set_render_sorted_by_index registry {Example.a, Example.b}
      [Example.b, Example.a] (by decide) (fun e => by
      simp only [List.mem_cons, List.mem_singleton, List.not_mem_nil, or_false,
        Finset.mem_insert, Finset.mem_singleton]
      tauto) "").2.2.2.2.1).trans (by decide),
    by decide, by decide,
    ((Event_Set_render_sorted_by_index registry {Example.a, Example.b}
      [Example.b, Example.a] (by decide) (fun e => by
      simp only [List.mem_cons, List.mem_singleton, List.not_mem_nil, or_false,
        Finset.mem_insert, Finset.mem_singleton]
      tauto) "").2.2.2.2.2
        [Example.a, Example.b, Example.a] (fun e => by
      simp only [List.mem_cons, List.mem_singleton, List.not_mem_nil, or_false,
        Finset.mem_insert, Finset.mem_singleton]
      tauto)).trans (by decide)⟩

/-- C22: process sets, process bags and event sets hash order-independently.
For any hasher, two lists of elements that are permutations of each other,
that is the same collection (for a bag, with multiplicities) stored or
iterated in two orders, have the same hash; for sets it is enough that the two
duplicate-free lists have the same elements.  The elements are sorted before
they are fed to the hasher. -/
theorem hash_order_independent (h : Hasher) :
    (∀ ps qs : Process.Set, ps.Perm qs → Process.Set.hash h ps = Process.Set.hash h qs) ∧
    (∀ ps qs : Process.Bag, ps.Perm qs → Process.Bag.hash h ps = Process.Bag.hash h qs) ∧
    (∀ es fs : List Event, es.Perm fs → Event.Set.hash h es = Event.Set.hash h fs) ∧
    (∀ ps qs : Process.Set, ps.Nodup → qs.Nodup → (∀ x, x ∈ ps ↔ x ∈ qs) →
      Process.Set.hash h ps = Process.Set.hash h qs) ∧
    (∀ es fs : List Event, es.Nodup → fs.Nodup → (∀ x, x ∈ es ↔ x ∈ fs) →
      Event.Set.hash h es = Event.Set.hash h fs) ∧
    (∀ es : List Event,
      (Event.sort es).Sorted (fun e1 e2 => e1.index ≤ e2.index) ∧ (Event.sort es).Perm es) ∧
    (∀ ps : List Process,
      (ps.insertionSort (fun x y => Process.code x ≤ Process.code y)).Sorted
          (fun x y => Process.code x ≤ Process.code y) ∧
        (ps.insertionSort (fun x y => Process.code x ≤ Process.code y)).Perm ps) := by
  have hev : ∀ es fs : List Event, es.Perm fs → Event.Set.hash h es = Event.Set.hash h fs := by
    intro es fs hp
    unfold Event.Set.hash
    rw [Event.sort_perm es fs hp]
  refine ⟨Process.Set.hash_perm h, Process.Bag.hash_of_perm h, hev, ?_, ?_, ?_, ?_⟩
  · intro ps qs hps hqs hmem
    exact Process.Set.hash_perm h ps qs ((List.perm_ext_iff_of_nodup hps hqs).mpr hmem)
  · intro es fs hes hfs hmem
    exact hev es fs ((List.perm_ext_iff_of_nodup hes hfs).mpr hmem)
  · intro es
    exact ⟨List.sorted_insertionSort _ es, List.perm_insertionSort _ es⟩
  · intro ps
    exact ⟨List.sorted_insertionSort _ ps, List.perm_insertionSort _ ps⟩

/-- The set `{a → STOP, b → STOP}`, the bag with `a → STOP` twice and
`b → STOP` once, and the event set `{a, b}`, each in two orders. -/
theorem hash_order_independent_witness :
    [b_STOP, a_STOP].Perm [a_STOP, b_STOP] ∧
    Process.Set.hash salted_hasher [b_STOP, a_STOP] =
      Process.Set.hash salted_hasher [a_STOP, b_STOP] ∧
    [b_STOP, a_STOP, a_STOP].Perm [a_STOP, b_STOP, a_STOP] ∧
    Process.Bag.hash salted_hasher [b_STOP, a_STOP, a_STOP] =
      Process.Bag.hash salted_hasher [a_STOP, b_STOP, a_STOP] ∧
    [Example.b, Example.a].Perm [Example.a, Example.b] ∧
    Event.Set.hash salted_hasher [Example.b, Example.a] =
      Event.Set.hash salted_hasher [Example.a, Example.b] :=
  ⟨by decide,
    (hash_order_independent salted_hasher).1 [b_STOP, a_STOP] [a_STOP, b_STOP] (by decide),
    by decide,
    (hash_order_independent salted_hasher).2.1 [b_STOP, a_STOP, a_STOP]
      [a_STOP, b_STOP, a_STOP] (by decide),
    by decide,
    (hash_order_independent salted_hasher).2.2.1 [Example.b, Example.a]
      [Example.a, Example.b] (by decide)⟩

/-- C23: the set-valued `initials` of `STOP ; STOP` on a sink that holds ✔.
The claim leaves the sink at `{✔} ∪ initials(STOP ; STOP) = {✔}`; the code
erases the ✔ that was there and inserts τ, and leaves `{τ}`; so it does on the
sink that `initials` of `SKIP` has filled.  On a sink that does not hold ✔ the
code leaves `S ∪ initials(P ; Q)`, for all `P`, `Q` and `S`. -/
theorem SequentialComposition_initials_erases_tick :
    initials (sequential_composition stop stop) {Event.tick} = {Event.tau} ∧
    {Event.tick} ∪ initials (sequential_composition stop stop) ∅ = {Event.tick} ∧
    initials (sequential_composition stop stop) {Event.tick} ≠
      {Event.tick} ∪ initials (sequential_composition stop stop) ∅ ∧
    Event.tick ∉ initials (sequential_composition stop stop) {Event.tick} ∧
    initials (sequential_composition stop stop) (initials skip ∅) = {Event.tau} ∧
    (∀ (P Q : Process) (S : Event.Set), Event.tick ∉ S →
      initials (sequential_composition P Q) S =
        S ∪ initials (sequential_composition P Q) ∅) := by
  refine ⟨by decide, by decide, by decide, by decide, by decide, ?_⟩
  intro P Q S hS
  exact initials_frame (sequential_composition P Q) S hS

/-- C24: conditional correctness of the in-place working set of
`ExternalChoice::afters`.  For an operand set `Ps` and any order `order` in
which its elements are visited: if no τ-successor of an operand is itself an
operand, then the working set `ps_prime` is `Ps` again at the start of every
outer iteration (after every initial part `done` of `order`, from where the
loop goes on with the remaining part), and the set reported is exactly
`{ □ (Ps ∖ {P} ∪ {P'}) | P ∈ Ps, P' ∈ afters(P, τ) }`, whatever the order; so
it is for `afters(□ Ps, τ)`. -/
theorem ExternalChoice_afters_tau_of_disjoint (ps : Process.Set) (order : List Process)
    (hps : Process.Set.Canonical ps) (horder : order.Perm ps)
    (hdisj : ∀ P ∈ ps, ∀ Q ∈ afters P Event.tau Process.Set.empty, Q ∉ ps) :
    (∀ done rest : List Process, order = done ++ rest →
      (ExternalChoice.aftersTau done ps Process.Set.empty).1 = ps ∧
      ExternalChoice.aftersTau order ps Process.Set.empty =
        ExternalChoice.aftersTau rest
          (ExternalChoice.aftersTau done ps Process.Set.empty).1
          (ExternalChoice.aftersTau done ps Process.Set.empty).2) ∧
    (ExternalChoice.aftersTau order ps Process.Set.empty).2.toFinset =
      ExternalChoice.aftersTauSpec ps ∧
    (afters (external_choice ps) Event.tau Process.Set.empty).toFinset =
      ExternalChoice.aftersTauSpec ps := by
  have hspec : ∀ l : List Process, l.Perm ps →
      (ExternalChoice.aftersTau l ps Process.Set.empty).2.toFinset =
        ExternalChoice.aftersTauSpec ps := by
    intro l hl
    ext y
    rw [List.mem_toFinset, mem_aftersTauSpec,
      (aftersTau_of_disjoint ps hps hdisj l (fun p hp => hl.subset hp) Process.Set.empty).2 y]
    simp only [Process.Set.empty, List.not_mem_nil, false_or]
    constructor
    · rintro ⟨p, hp, q, hq, rfl⟩
      exact ⟨p, hl.subset hp, q, hq, rfl⟩
    · rintro ⟨p, hp, q, hq, rfl⟩
      exact ⟨p, hl.symm.subset hp, q, hq, rfl⟩
  refine ⟨?_, hspec order horder, ?_⟩
  · intro done rest hsplit
    refine ⟨(aftersTau_of_disjoint ps hps hdisj done ?_ Process.Set.empty).1, ?_⟩
    · intro p hp
      apply horder.subset
      rw [hsplit]
      exact List.mem_append_left _ hp
    · rw [hsplit]
      exact aftersTau_append done rest ps Process.Set.empty
  · have h := hspec ps (List.Perm.refl ps)
    simpa only [external_choice, afters, if_true] using h

/-- The operands of `(a → STOP) □ (b → STOP ⊓ c → STOP)`, visited with the
internal choice first: the two choices of the test are reported. -/
theorem ExternalChoice_afters_tau_of_disjoint_witness :
    Process.Set.Canonical [a_STOP, internal_choice₂ b_STOP c_STOP] ∧
    [internal_choice₂ b_STOP c_STOP, a_STOP].Perm [a_STOP, internal_choice₂ b_STOP c_STOP] ∧
    (∀ P ∈ [a_STOP, internal_choice₂ b_STOP c_STOP],
      ∀ Q ∈ afters P Event.tau Process.Set.empty,
        Q ∉ [a_STOP, internal_choice₂ b_STOP c_STOP]) ∧
    (ExternalChoice.aftersTau [internal_choice₂ b_STOP c_STOP, a_STOP]
        [a_STOP, internal_choice₂ b_STOP c_STOP] Process.Set.empty).2.toFinset =
      ExternalChoice.aftersTauSpec [a_STOP, internal_choice₂ b_STOP c_STOP] ∧
    ExternalChoice.aftersTauSpec [a_STOP, internal_choice₂ b_STOP c_STOP] =
      {choice_a_b, choice_a_c} :=
  ⟨⟨by decide, by decide⟩, by decide, by decide,
    (ExternalChoice_afters_tau_of_disjoint [a_STOP, internal_choice₂ b_STOP c_STOP]
      [internal_choice₂ b_STOP c_STOP, a_STOP] ⟨by decide, by decide⟩ (by decide)
      (by decide)).2.1,
    by decide⟩

end hst
